import Mathlib

/-!
Verification of the AIBerry retrieval-augmented query pipeline.

Shallow embedding of the Python sources:
  src/config.py                       → `Settings`, `defaultSettings`
  src/services/guardrails_service.py  → character classes, regex matchers,
                                        `validateInput`, `validateOutput`, `sanitizeText`
  src/services/memory_service.py      → `addToShortTermMemory`, `getShortTermMemory`
  src/services/vector_service.py      → `similaritySearch`, `addDocuments`
  src/main.py (query endpoint)        → `queryHandler`

Texts are modeled as `List Char` (Python `str` over its ASCII fragment);
floats are modeled as `ℚ` (the arithmetic used — `1 - distance`,
threshold comparisons — is exact on the values involved).
-/

namespace AIBerry

/-! ## Character classes (Python `re` over the ASCII fragment)

`pyWordChar` models `\w` (`[A-Za-z0-9_]`), `pyWhitespaceChar` models `\s`
(`[ \t\n\r\x0b\x0c]`), and the email classes come from the pattern
`\b[A-Z0-9._%+-]+@[A-Z0-9.-]+\.[A-Z]{2,}\b` compiled with `re.IGNORECASE`
(guardrails_service.py line 36). -/

def pyWordChar (c : Char) : Bool :=
  c.isAlpha || c.isDigit || c = '_'

def pyWhitespaceChar (c : Char) : Bool :=
  c = ' ' || c = '\t' || c = '\n' || c = '\r' || c = Char.ofNat 11 || c = Char.ofNat 12

def emailLocalChar (c : Char) : Bool :=
  c.isAlpha || c.isDigit || c = '.' || c = '_' || c = '%' || c = '+' || c = '-'

def emailDomainChar (c : Char) : Bool :=
  c.isAlpha || c.isDigit || c = '.' || c = '-'

/-- Word value of an optional character: a position beyond either end of the
string counts as a non-word position for `\b`. -/
def isWordO (o : Option Char) : Bool :=
  match o with
  | some c => pyWordChar c
  | none => false

/-- Character preceding position `p` of `T`, where `γ` stands for the (single)
character just before `T` itself — `none` when `T` starts the whole string.
Working relative to a left-context character lets the same match predicate be
used for suffixes of a string produced by concatenation. -/
def pcC (γ : Option Char) (T : List Char) (p : Nat) : Option Char :=
  if p = 0 then γ else T[p - 1]?

/-- Python word boundary `\b` at position `p` of `T` with left context `γ`. -/
def bdC (γ : Option Char) (T : List Char) (p : Nat) : Bool :=
  isWordO (pcC γ T p) != isWordO (T[p]?)

/-- Word boundary in a whole string (no left context). -/
def bd (s : List Char) (p : Nat) : Bool := bdC none s p

/-! ## Maximal runs of a character class -/

def runLenAux (p : Char → Bool) : List Char → Nat
  | [] => 0
  | c :: t => if p c then runLenAux p t + 1 else 0

/-- Length of the maximal run of `p`-characters of `s` starting at index `i`. -/
def runLen (p : Char → Bool) (s : List Char) (i : Nat) : Nat :=
  runLenAux p (s.drop i)

theorem runLen_unfold (p : Char → Bool) (s : List Char) (i : Nat) :
    runLen p s i =
      match s[i]? with
      | some c => if p c then runLen p s (i + 1) + 1 else 0
      | none => 0 := by
  unfold runLen
  rcases h : s[i]? with _ | c
  · have hlen : s.length ≤ i := List.getElem?_eq_none_iff.mp h
    rw [List.drop_eq_nil_of_le hlen]
    rfl
  · have hi : i < s.length := by
      by_contra hc
      rw [List.getElem?_eq_none_iff.mpr (Nat.le_of_not_lt hc)] at h
      exact Option.noConfusion h
    rw [List.drop_eq_getElem_cons hi]
    have : s[i] = c := by
      have := List.getElem?_eq_getElem hi
      rw [h] at this
      exact (Option.some_inj.mp this).symm
    rw [this]
    rfl

theorem runLen_some (p : Char → Bool) (s : List Char) (i : Nat) (c : Char)
    (h : s[i]? = some c) :
    runLen p s i = if p c then runLen p s (i + 1) + 1 else 0 := by
  rw [runLen_unfold, h]

theorem runLen_none (p : Char → Bool) (s : List Char) (i : Nat)
    (h : s[i]? = none) : runLen p s i = 0 := by
  rw [runLen_unfold, h]

theorem runLen_mem (p : Char → Bool) (s : List Char) (i : Nat) :
    ∀ q, q < runLen p s i → ∃ c, s[i + q]? = some c ∧ p c = true := by
  have H : ∀ n i, runLen p s i = n → ∀ q, q < n → ∃ c, s[i + q]? = some c ∧ p c = true := by
    intro n
    induction n with
    | zero => intro i _ q hq; omega
    | succ m ih =>
      intro i hrun q hq
      rcases h : s[i]? with _ | c
      · rw [runLen_none p s i h] at hrun; exact absurd hrun (Nat.succ_ne_zero m).symm
      · rw [runLen_some p s i c h] at hrun
        by_cases hp : p c = true
        · rw [if_pos hp] at hrun
          cases q with
          | zero => exact ⟨c, by simpa using h, hp⟩
          | succ q' =>
            have := ih (i + 1) (by omega) q' (by omega)
            rcases this with ⟨c', hc', hpc'⟩
            exact ⟨c', by rw [show i + (q' + 1) = i + 1 + q' by omega]; exact hc', hpc'⟩
        · rw [if_neg hp] at hrun; exact absurd hrun (Nat.succ_ne_zero m).symm
  exact fun q hq => H (runLen p s i) i rfl q hq

theorem runLen_next (p : Char → Bool) (s : List Char) (i : Nat) :
    s[i + runLen p s i]? = none ∨
      ∃ c, s[i + runLen p s i]? = some c ∧ p c = false := by
  have H : ∀ n i, runLen p s i = n →
      s[i + n]? = none ∨ ∃ c, s[i + n]? = some c ∧ p c = false := by
    intro n
    induction n with
    | zero =>
      intro i hrun
      rcases h : s[i]? with _ | c
      · left; simpa using h
      · rw [runLen_some p s i c h] at hrun
        by_cases hp : p c = true
        · rw [if_pos hp] at hrun; exact absurd hrun (Nat.succ_ne_zero _)
        · right; exact ⟨c, by simpa using h, by simpa using hp⟩
    | succ m ih =>
      intro i hrun
      rcases h : s[i]? with _ | c
      · rw [runLen_none p s i h] at hrun; exact absurd hrun (Nat.succ_ne_zero m).symm
      · rw [runLen_some p s i c h] at hrun
        by_cases hp : p c = true
        · rw [if_pos hp] at hrun
          have := ih (i + 1) (by omega)
          rw [show i + 1 + m = i + (m + 1) by omega] at this
          exact this
        · rw [if_neg hp] at hrun; exact absurd hrun (Nat.succ_ne_zero m).symm
  exact H (runLen p s i) i rfl

theorem runLen_eq_of (p : Char → Bool) (s : List Char) (i n : Nat)
    (hmem : ∀ q, q < n → ∃ c, s[i + q]? = some c ∧ p c = true)
    (hstop : s[i + n]? = none ∨ ∃ c, s[i + n]? = some c ∧ p c = false) :
    runLen p s i = n := by
  induction n generalizing i with
  | zero =>
    rcases hstop with h | ⟨c, hc, hpc⟩
    · rw [show i + 0 = i by omega] at h; exact runLen_none p s i h
    · rw [show i + 0 = i by omega] at hc
      rw [runLen_some p s i c hc, hpc]
      simp
  | succ m ih =>
    rcases hmem 0 (by omega) with ⟨c, hc, hpc⟩
    rw [show i + 0 = i by omega] at hc
    rw [runLen_some p s i c hc, if_pos hpc]
    have : runLen p s (i + 1) = m := by
      apply ih
      · intro q hq
        rcases hmem (q + 1) (by omega) with ⟨c', hc', hpc'⟩
        exact ⟨c', by rw [show i + 1 + q = i + (q + 1) by omega]; exact hc', hpc'⟩
      · rw [show i + 1 + m = i + (m + 1) by omega]; exact hstop
    omega

theorem runLen_ge_of (p : Char → Bool) (s : List Char) (i n : Nat)
    (hmem : ∀ q, q < n → ∃ c, s[i + q]? = some c ∧ p c = true) :
    n ≤ runLen p s i := by
  induction n generalizing i with
  | zero => omega
  | succ m ih =>
    rcases hmem 0 (by omega) with ⟨c, hc, hpc⟩
    rw [show i + 0 = i by omega] at hc
    rw [runLen_some p s i c hc, if_pos hpc]
    have : m ≤ runLen p s (i + 1) := by
      apply ih
      intro q hq
      rcases hmem (q + 1) (by omega) with ⟨c', hc', hpc'⟩
      exact ⟨c', by rw [show i + 1 + q = i + (q + 1) by omega]; exact hc', hpc'⟩
    omega

/-! ## PII pattern matchers (guardrails_service.py lines 33-37)

`pii_patterns = [ (\b\d{3}-\d{2}-\d{4}\b, SSN), (\b\d{16}\b, CC),
(\b[A-Z0-9._%+-]+@[A-Z0-9.-]+\.[A-Z]{2,}\b, EMAIL, re.IGNORECASE) ]`.
Each matcher reports, for a start position, the end position (exclusive) of
the match chosen by Python's backtracking engine there, or `none`. -/

def chIs (s : List Char) (i : Nat) (p : Char → Bool) : Bool :=
  match s[i]? with
  | some c => p c
  | none => false

def chEq (s : List Char) (i : Nat) (c : Char) : Bool :=
  s[i]? == some c

def digitsAt (s : List Char) (i n : Nat) : Bool :=
  (List.range n).all fun q => chIs s (i + q) Char.isDigit

/-- The SSN pattern `\b\d{3}-\d{2}-\d{4}\b` at position `i` (fixed length 11). -/
def matchSSNAt (s : List Char) (i : Nat) : Bool :=
  bd s i && digitsAt s i 3 && chEq s (i + 3) '-' && digitsAt s (i + 4) 2 &&
    chEq s (i + 6) '-' && digitsAt s (i + 7) 4 && bd s (i + 11)

def matchSSNOpt (s : List Char) (i : Nat) : Option Nat :=
  if matchSSNAt s i then some (i + 11) else none

/-- The credit-card pattern `\b\d{16}\b` at position `i` (fixed length 16). -/
def matchCCAt (s : List Char) (i : Nat) : Bool :=
  bd s i && digitsAt s i 16 && bd s (i + 16)

def matchCCOpt (s : List Char) (i : Nat) : Option Nat :=
  if matchCCAt s i then some (i + 16) else none

/-- Backtracking for the email tail `[A-Z0-9.-]+\.[A-Z]{2,}\b` after the `@`
at position `j`: the engine tries domain lengths descending from the maximal
`[A-Z0-9.-]` run; for a fixed domain length the `[A-Z]{2,}` part can only
succeed on its maximal run (a shorter run is followed by a letter, which is a
word character, so the trailing `\b` fails). -/
def tryDom (s : List Char) (j : Nat) : Nat → Option Nat
  | 0 => none
  | d + 1 =>
    if chEq s (j + d + 1) '.' then
      let L := runLen Char.isAlpha s (j + d + 2)
      if 2 ≤ L && bd s (j + d + 2 + L) then some (j + d + 2 + L) else tryDom s j d
    else tryDom s j d

/-- The email pattern `\b[A-Z0-9._%+-]+@[A-Z0-9.-]+\.[A-Z]{2,}\b`
(IGNORECASE) at position `i`.  The local part `[A-Z0-9._%+-]+` can only match
its maximal run because the following `@` is not a local character. -/
def matchEmailAt (s : List Char) (i : Nat) : Option Nat :=
  if bd s i then
    let l := runLen emailLocalChar s i
    if l = 0 then none
    else if chEq s (i + l) '@' then
      tryDom s (i + l + 1) (runLen emailDomainChar s (i + l + 1))
    else none
  else none

/-- Relational form of the email pattern, with explicit left-context
character `γ` (used for matches inside suffixes of concatenations):
a decomposition `local ++ @ ++ domain ++ . ++ tld` with word boundaries at
both ends.  `EmailMatchW` below is the whole-string instance. -/
def EmailMatchAtC (γ : Option Char) (T : List Char) (i j : Nat) : Prop :=
  bdC γ T i = true ∧
  ∃ l d k, 1 ≤ l ∧ 1 ≤ d ∧ 2 ≤ k ∧ j = i + l + 1 + d + 1 + k ∧
    (∀ q, q < l → ∃ c, T[i + q]? = some c ∧ emailLocalChar c = true) ∧
    T[i + l]? = some '@' ∧
    (∀ q, q < d → ∃ c, T[i + l + 1 + q]? = some c ∧ emailDomainChar c = true) ∧
    T[i + l + 1 + d]? = some '.' ∧
    (∀ q, q < k → ∃ c, T[i + l + 1 + d + 1 + q]? = some c ∧ c.isAlpha = true) ∧
    bdC γ T j = true

/-- A substring of `T` matches the email pattern at position `i`
(whole-string contexts). -/
def EmailMatchW (T : List Char) (i j : Nat) : Prop :=
  EmailMatchAtC none T i j

/-! ## `re.sub` scanning (used by `sanitize_text`, guardrails_service.py 260-280)

`re.sub` scans left to right; at each position it either emits the original
character and advances by one, or — when the pattern matches there — emits the
replacement and continues right after the match.  `fuel` only bounds the
recursion; it is always called with more fuel than remaining characters, and
every matcher above returns an end strictly beyond its start. -/

def reSubFrom (m : List Char → Nat → Option Nat) (rep : List Char)
    (s : List Char) : Nat → Nat → List Char
  | 0, _ => []
  | fuel + 1, i =>
    match s[i]? with
    | none => []
    | some c =>
      match m s i with
      | some e => rep ++ reSubFrom m rep s fuel e
      | none => c :: reSubFrom m rep s fuel (i + 1)

def reSub (m : List Char → Nat → Option Nat) (rep : List Char)
    (s : List Char) : List Char :=
  reSubFrom m rep s (s.length + 1) 0

/-- Start/end positions of the matches the scan replaces. -/
def spansFrom (m : List Char → Nat → Option Nat) (s : List Char) :
    Nat → Nat → List (Nat × Nat)
  | 0, _ => []
  | fuel + 1, i =>
    match s[i]? with
    | none => []
    | some _ =>
      match m s i with
      | some e => (i, e) :: spansFrom m s fuel e
      | none => spansFrom m s fuel (i + 1)

def reSpans (m : List Char → Nat → Option Nat) (s : List Char) :
    List (Nat × Nat) :=
  spansFrom m s (s.length + 1) 0

/-- Rebuild a string from its untouched segments and the replacement put in
place of each replaced span. -/
def renderFrom (rep : List Char) (s : List Char) :
    Nat → List (Nat × Nat) → List Char
  | i, [] => s.drop i
  | i, (a, e) :: rest => (s.drop i).take (a - i) ++ rep ++ renderFrom rep s e rest

def redactedTag (k : String) : String := "[" ++ k ++ "_REDACTED]"

/-- `sanitize_text`: `re.sub(pattern, f"[tag_REDACTED]", text)` applied for
each PII pattern in list order — SSN, then CC, then EMAIL. -/
def sanitizeText (t : List Char) : List Char :=
  reSub matchEmailAt (redactedTag "EMAIL").toList
    (reSub matchCCOpt (redactedTag "CC").toList
      (reSub matchSSNOpt (redactedTag "SSN").toList t))

/-! ## Blocked-content patterns (guardrails_service.py lines 25-30)

All four fallback patterns carry `(?i)`; searching the lower-cased text for
lower-case literals models this. -/

def seqStartsWith : List Char → List Char → Bool
  | [], _ => true
  | _ :: _, [] => false
  | a :: pa, b :: pb => a == b && seqStartsWith pa pb

/-- `re.search` position scan: does `test` accept some suffix? -/
def scanAny (test : List Char → Bool) : List Char → Bool
  | [] => test []
  | c :: t => test (c :: t) || scanAny test t

def lowerList (t : List Char) : List Char := t.map Char.toLower

def containsWord (w : String) (lt : List Char) : Bool :=
  scanAny (seqStartsWith w.toList) lt

/-- `api[_\s]?key` / `secret[_\s]?key`: the word, an optional underscore or
whitespace character, then `key`. -/
def optKeyTest (w : String) (u : List Char) : Bool :=
  seqStartsWith w.toList u &&
    (let v := u.drop w.toList.length
     seqStartsWith "key".toList v ||
       match v with
       | [] => false
       | c :: rest => (c = '_' || pyWhitespaceChar c) && seqStartsWith "key".toList rest)

/-- `(bypass|circumvent|override)\s+(security|safety)`: only the maximal
whitespace run can satisfy `\s+` here, since both alternatives after it start
with the non-whitespace letter `s`. -/
def p4Test (u : List Char) : Bool :=
  ["bypass", "circumvent", "override"].any fun w =>
    seqStartsWith w.toList u &&
      (let v := u.drop w.toList.length
       let k := runLenAux pyWhitespaceChar v
       decide (1 ≤ k) &&
         (seqStartsWith "security".toList (v.drop k) ||
           seqStartsWith "safety".toList (v.drop k)))

def foundBlockedPattern (t : List Char) : Bool :=
  let lt := lowerList t
  (["hack", "exploit", "vulnerability", "malware", "phishing"].any
      fun w => containsWord w lt) ||
    (containsWord "password" lt || containsWord "credential" lt ||
      scanAny (optKeyTest "api") lt || scanAny (optKeyTest "secret") lt) ||
    (["inject", "sql", "xss", "csrf"].any fun w => containsWord w lt) ||
    scanAny p4Test lt

/-! ## PII detection (`re.search` per pattern, collecting kind tags in order) -/

def ssnFound (t : List Char) : Bool :=
  (List.range (t.length + 1)).any fun i => matchSSNAt t i

def ccFound (t : List Char) : Bool :=
  (List.range (t.length + 1)).any fun i => matchCCAt t i

def emailFound (t : List Char) : Bool :=
  (List.range (t.length + 1)).any fun i => (matchEmailAt t i).isSome

def piiFound (t : List Char) : List String :=
  (if ssnFound t then ["SSN"] else []) ++
    (if ccFound t then ["CC"] else []) ++
    (if emailFound t then ["EMAIL"] else [])

/-! ## Settings (config.py) — the fields the modeled services read -/

structure Settings where
  guardrailsEnabled : Bool
  maxInputLength : Nat
  maxOutputLength : Nat
  maxShortTermMessages : Nat
  shortTermMemoryTtl : Nat
  longTermMemoryTtl : Nat
  similarityThreshold : ℚ
  maxSearchResults : Nat
deriving DecidableEq

/-- Defaults from config.py: `max_input_length=2000`, `max_output_length=4000`,
`max_short_term_messages=10`, `short_term_memory_ttl=3600`,
`long_term_memory_ttl=2592000`, `similarity_threshold=0.7`,
`max_search_results=10`, `guardrails_enabled=True`. -/
def defaultSettings : Settings :=
  ⟨true, 2000, 4000, 10, 3600, 2592000, 7 / 10, 10⟩

/-! ## Guardrails verdicts (guardrails_service.py 106-258)

The dicts returned by `validate_input` / `validate_output`, with absent keys
as `none` / `[]`.  `initialize()` is never awaited by the application
(main.py's lifespan only initializes the vector and memory services), so
`self.rails` stays `None` and the regex fallback path below is the one that
runs; the internal try/except fail-open branch is unreachable in this model
since every modeled step is total. -/

structure GuardrailVerdict where
  passed : Bool
  message : Option String
  warning : Option String
  piiTypes : List String
deriving DecidableEq

def inputLengthMessage (n : Nat) : String :=
  "Input exceeds maximum length of " ++ toString n ++ " characters"

def emptyInputMessage : String := "Input cannot be empty"

def unsafeInputMessage : String :=
  "Input contains potentially unsafe content. Please rephrase your query."

def piiWarningMessage (kinds : List String) : String :=
  "Detected potential PII: " ++ String.intercalate ", " kinds ++
    ". Please avoid sharing sensitive information."

def outputLengthMessage : String :=
  "Response too long. Please try a more specific query."

def unsafeOutputMessage : String :=
  "I cannot provide that information. Please ask a different question."

def piiOutputMessage : String :=
  "I apologize, but I cannot provide that response for privacy reasons."

/-- `validate_input` (guardrails_service.py 106-183): length bound, emptiness
after `str.strip()`, blocked-content patterns, then PII as a non-blocking
warning. -/
def validateInput (st : Settings) (text : List Char) : GuardrailVerdict :=
  if st.guardrailsEnabled = false then ⟨true, none, none, []⟩
  else if st.maxInputLength < text.length then
    ⟨false, some (inputLengthMessage st.maxInputLength), none, []⟩
  else if text.all pyWhitespaceChar then ⟨false, some emptyInputMessage, none, []⟩
  else if foundBlockedPattern text then ⟨false, some unsafeInputMessage, none, []⟩
  else if (piiFound text).isEmpty then ⟨true, none, none, []⟩
  else ⟨true, none, some (piiWarningMessage (piiFound text)), piiFound text⟩

/-- `validate_output` (guardrails_service.py 185-258): length bound,
blocked-content patterns, then PII as a hard block. -/
def validateOutput (st : Settings) (text : List Char) : GuardrailVerdict :=
  if st.guardrailsEnabled = false then ⟨true, none, none, []⟩
  else if st.maxOutputLength < text.length then
    ⟨false, some outputLengthMessage, none, []⟩
  else if foundBlockedPattern text then ⟨false, some unsafeOutputMessage, none, []⟩
  else if (piiFound text).isEmpty then ⟨true, none, none, []⟩
  else ⟨false, some piiOutputMessage, none, []⟩

/-! ## Memory service (memory_service.py)

Short-term memory per session: a Redis list at key `stm:{session_id}`,
most-recent-first (`lpush`), trimmed with `ltrim(key, 0, max-1)` after each
insert.  Timestamps (wall clock) are omitted; TTLs only matter for expiry,
which the claims do not exercise.  Note Redis `LTRIM key 0 -1` — the case
`max_short_term_messages = 0` — keeps the whole list, since a negative stop
index counts from the end. -/

structure MsgPair where
  user : List Char
  ai : List Char
deriving DecidableEq

structure ChatMsg where
  role : String
  content : List Char
deriving DecidableEq

/-- Per-session key space: `stm:{session_id}` modeled by the session id. -/
def MemoryStore : Type := String → List MsgPair

def emptyMemory : MemoryStore := fun _ => []

def ltrimKeep (cap : Nat) (l : List MsgPair) : List MsgPair :=
  if cap = 0 then l else l.take cap

/-- `add_to_short_term_memory` (memory_service.py 41-78): `lpush` the new
pair, then `ltrim(key, 0, max_short_term_messages - 1)`. -/
def addToShortTermMemory (st : Settings) (mem : MemoryStore)
    (sessionId : String) (userMessage aiMessage : List Char) : MemoryStore :=
  fun k =>
    if k = sessionId then
      ltrimKeep st.maxShortTermMessages (⟨userMessage, aiMessage⟩ :: mem sessionId)
    else mem k

def expandPairs : List MsgPair → List ChatMsg
  | [] => []
  | p :: rest => ⟨"user", p.user⟩ :: ⟨"assistant", p.ai⟩ :: expandPairs rest

/-- `get_short_term_memory` (memory_service.py 83-115): `lrange(key, 0, -1)`,
reversed into chronological order, each pair expanded into a user turn and an
assistant turn. -/
def getShortTermMemory (mem : MemoryStore) (sessionId : String) : List ChatMsg :=
  expandPairs (mem sessionId).reverse

/-! ## Vector service (vector_service.py) -/

/-- One hit as returned by the RediSearch KNN query: the `score` field is the
cosine distance reported by the index (`AS score`). -/
structure RawHit where
  content : List Char
  filename : String
  documentId : String
  score : ℚ
deriving DecidableEq

structure DocMeta where
  filename : String
  documentId : String
  score : ℚ
deriving DecidableEq

/-- A langchain `Document` as built by `similarity_search`. -/
structure RetrievedDoc where
  pageContent : List Char
  metadata : DocMeta
deriving DecidableEq

/-- Result-processing loop of `similarity_search` (vector_service.py 193-209):
`score = 1 - float(doc.score)`; then `if score_threshold and score <
score_threshold: continue` — Python truthiness: a `None` **or zero** threshold
disables the filter. -/
def processHits : List RawHit → Option ℚ → List RetrievedDoc
  | [], _ => []
  | h :: rest, threshold =>
    let score := 1 - h.score
    let dropHit :=
      match threshold with
      | none => false
      | some t => !(t = 0) && decide (score < t)
    if dropHit then processHits rest threshold
    else ⟨h.content, ⟨h.filename, h.documentId, score⟩⟩ :: processHits rest threshold

/-- `similarity_search(query, k, score_threshold)`: the KNN index returns (at
most) the `k` nearest stored hits — modeled as the environment's hit list
truncated to `k` — which the loop above then annotates and filters. -/
def similaritySearch (hits : List RawHit) (k : Nat) (scoreThreshold : Option ℚ) :
    List RetrievedDoc :=
  processHits (hits.take k) scoreThreshold

/-- A langchain document chunk handed to `add_documents`. -/
structure InputDoc where
  pageContent : List Char
  filename : String
deriving DecidableEq

/-- The JSON value stored at key `doc:{document_id}:{idx}`. -/
structure ChunkData where
  content : List Char
  filename : String
  documentId : String
  chunkIndex : Nat
  embedding : List ℚ
deriving DecidableEq

inductive VecErr where
  | embeddingError
deriving DecidableEq

/-- Redis JSON keyspace restricted to the `doc:{document_id}:{idx}` keys. -/
def VectorStore : Type := String × Nat → Option ChunkData

def emptyVectorStore : VectorStore := fun _ => none

def storeSet (s : VectorStore) (key : String × Nat) (v : ChunkData) : VectorStore :=
  fun k => if k = key then some v else s k

/-- Embedding + buffering loop of `add_documents` (vector_service.py 128-149):
for each chunk, call the embedding service, then queue
`pipeline.json().set(f"doc:d:idx", data)` client-side.  The first embedding
failure raises out of the loop with the pipeline never executed. -/
def collectWrites (embed : List Char → Except VecErr (List ℚ))
    (documentId : String) :
    List InputDoc → Nat → Except VecErr (List ((String × Nat) × ChunkData))
  | [], _ => .ok []
  | doc :: rest, idx =>
    match embed doc.pageContent with
    | .error e => .error e
    | .ok emb =>
      match collectWrites embed documentId rest (idx + 1) with
      | .error e => .error e
      | .ok ws =>
        .ok (((documentId, idx),
          ⟨doc.pageContent, doc.filename, documentId, idx, emb⟩) :: ws)

/-- `add_documents` (vector_service.py 113-156): buffer one `json().set` per
chunk in a client-side pipeline, then `pipeline.execute()` once.  The store is
only touched at the execute point, so an embedding failure leaves it
unchanged. -/
def addDocuments (embed : List Char → Except VecErr (List ℚ))
    (documents : List InputDoc) (documentId : String) (store : VectorStore) :
    Except VecErr Nat × VectorStore :=
  match collectWrites embed documentId documents 0 with
  | .error e => (.error e, store)
  | .ok ws => (.ok documents.length, ws.foldl (fun st w => storeSet st w.1 w.2) store)

/-! ## Query orchestrator (main.py, `query` endpoint, lines 177-241)

The external services are oracles in an environment: the KNN index contents
and the LLM.  `queryHandler` records every service call it makes, in order,
so ordering and omission claims are statements about the returned call
list. -/

structure QueryRequest where
  query : List Char
  sessionId : String
  useContext : Bool
  temperature : ℚ

structure LLMResult where
  response : List Char
  tokensUsed : Option Nat

structure QueryResponse where
  response : List Char
  sessionId : String
  sources : Option (List DocMeta)
  guardrailsPassed : Bool
  tokensUsed : Option Nat
deriving DecidableEq

structure Env where
  rawHits : List RawHit
  llm : List Char → List RetrievedDoc → List ChatMsg → ℚ → LLMResult

inductive ServiceCall where
  | validateInputCall
  | getShortTermMemoryCall
  | similaritySearchCall (k : Nat) (scoreThreshold : Option ℚ)
  | generateCall
  | validateOutputCall
  | addToShortTermMemoryCall
deriving DecidableEq

/-- The `query` endpoint (main.py 177-241), success path:
validate input (early return when blocked), read short-term memory, then —
only if `use_context` — `similarity_search(request.query, k=5)` (note: `k` is
the literal `5` and no `score_threshold` is passed), generate, validate
output (replacing the answer with the refusal message when blocked), write
the exchange to short-term memory, and answer. -/
def queryHandler (st : Settings) (env : Env) (req : QueryRequest)
    (mem : MemoryStore) : QueryResponse × MemoryStore × List ServiceCall :=
  let gv := validateInput st req.query
  if gv.passed = false then
    (⟨(gv.message.getD "").toList, req.sessionId, none, false, none⟩, mem,
      [.validateInputCall])
  else
    let history := getShortTermMemory mem req.sessionId
    let contextDocs := if req.useContext then similaritySearch env.rawHits 5 none else []
    let searchCalls : List ServiceCall :=
      if req.useContext then [.similaritySearchCall 5 none] else []
    let gen := env.llm req.query contextDocs history req.temperature
    let og := validateOutput st gen.response
    let finalAnswer := if og.passed then gen.response else (og.message.getD "").toList
    let memAfter := addToShortTermMemory st mem req.sessionId req.query finalAnswer
    (⟨finalAnswer, req.sessionId,
        (if contextDocs.isEmpty then none else some (contextDocs.map (·.metadata))),
        og.passed, gen.tokensUsed⟩,
      memAfter,
      [.validateInputCall, .getShortTermMemoryCall] ++ searchCalls ++
        [.generateCall, .validateOutputCall, .addToShortTermMemoryCall])

/-! ## Concrete fixtures used by witnesses and counterexamples -/

def testEnv : Env :=
  ⟨[], fun _ _ _ _ => ⟨"ok".toList, none⟩⟩

def passingReq : QueryRequest :=
  ⟨"hello there".toList, "s1", true, 7 / 10⟩

def blockedReq : QueryRequest :=
  ⟨"my password is 12345".toList, "s1", true, 7 / 10⟩

/-! ## C1 — input-blocked turns -/

/-- C1: when input validation blocks (`passed=false`), `query` returns the
guardrail's block message as the answer with `guardrails_passed=false`, makes
no further service call (no memory read, no vector search, no LLM generation,
no output validation, no memory write), and leaves the session memory
unchanged. -/
theorem query_input_blocked_no_effects (st : Settings) (env : Env)
    (req : QueryRequest) (mem : MemoryStore)
    (h : (validateInput st req.query).passed = false) :
    queryHandler st env req mem =
      (⟨((validateInput st req.query).message.getD "").toList, req.sessionId,
          none, false, none⟩,
        mem, [.validateInputCall]) := by
  simp only [queryHandler, h, if_pos]

/-- Witness for C1 at the blocked query "my password is 12345". -/
theorem query_input_blocked_no_effects_witness :
    (validateInput defaultSettings blockedReq.query).passed = false ∧
    (queryHandler defaultSettings testEnv blockedReq emptyMemory).1 =
      ⟨unsafeInputMessage.toList, "s1", none, false, none⟩ ∧
    (queryHandler defaultSettings testEnv blockedReq emptyMemory).2.1 "s1" = [] ∧
    (queryHandler defaultSettings testEnv blockedReq emptyMemory).2.2 =
      [.validateInputCall] := by
  have hb : (validateInput defaultSettings blockedReq.query).passed = false := by decide
  have h := query_input_blocked_no_effects defaultSettings testEnv blockedReq
    emptyMemory hb
  refine ⟨hb, ?_, ?_, ?_⟩
  · rw [h]; decide
  · rw [h]; rfl
  · rw [h]

/-! ## C2 — score-threshold filtering in `similarity_search` -/

/-- C2 counterexample: with an explicitly given `score_threshold` of `0.0`,
a hit at cosine distance `3/2` (similarity `-1/2`, strictly below the
threshold) is still returned, because `if score_threshold and score <
score_threshold` treats a zero threshold as falsy and skips the filter. -/
theorem similarity_zero_threshold_not_filtered :
    similaritySearch [⟨"x".toList, "f", "d", 3 / 2⟩] 5 (some 0) =
      [⟨"x".toList, ⟨"f", "d", -(1 / 2)⟩⟩] ∧
    ((-(1 / 2) : ℚ) < 0) := by
  constructor
  · simp only [similaritySearch, List.take, processHits]
    norm_num
  · norm_num

/-- C2 (amended): whenever a **nonzero** `score_threshold` is given, every
returned chunk carries similarity `1 - distance` at least the threshold, and
each returned chunk comes from one of the (at most `k`) index hits; hits
below the threshold are dropped even when that leaves fewer than `k`
results.  A threshold of exactly `0` is treated as absent by the code. -/
theorem similarity_threshold_filters (hits : List RawHit) (k : Nat) (t : ℚ)
    (ht : t ≠ 0) :
    ∀ doc ∈ similaritySearch hits k (some t),
      t ≤ doc.metadata.score ∧
        ∃ hit ∈ hits.take k, doc.metadata.score = 1 - hit.score := by
  unfold similaritySearch
  generalize hits.take k = l
  induction l with
  | nil => intro doc hd; simp [processHits] at hd
  | cons h rest ih =>
    intro doc hd
    rw [processHits] at hd
    by_cases hdrop : (!(t = 0) && decide (1 - h.score < t)) = true
    · rw [if_pos hdrop] at hd
      rcases ih doc hd with ⟨h1, hit, hmem, heq⟩
      exact ⟨h1, hit, List.mem_cons_of_mem h hmem, heq⟩
    · rw [if_neg hdrop] at hd
      rcases List.mem_cons.mp hd with heq | hmem
      · subst heq
        refine ⟨?_, h, List.mem_cons_self h rest, rfl⟩
        have : ¬(1 - h.score < t) := by
          intro hlt
          apply hdrop
          simp [ht, hlt]
        exact le_of_not_lt this
      · rcases ih doc hmem with ⟨h1, hit, hmem2, heq⟩
        exact ⟨h1, hit, List.mem_cons_of_mem h hmem2, heq⟩

/-- Witness for C2's amended theorem at threshold `7/10` on two hits, one
above and one below. -/
theorem similarity_threshold_filters_witness :
    ((7 : ℚ) / 10 ≠ 0) ∧
    similaritySearch [⟨"a".toList, "f", "d", 1 / 10⟩, ⟨"b".toList, "f", "d", 3 / 2⟩]
        5 (some (7 / 10)) =
      [⟨"a".toList, ⟨"f", "d", 9 / 10⟩⟩] ∧
    ∀ doc ∈ similaritySearch
        [⟨"a".toList, "f", "d", 1 / 10⟩, ⟨"b".toList, "f", "d", 3 / 2⟩]
        5 (some (7 / 10)),
      (7 : ℚ) / 10 ≤ doc.metadata.score := by
  refine ⟨by norm_num, ?_, ?_⟩
  · simp only [similaritySearch, List.take, processHits]
    norm_num
  · intro doc hd
    exact (similarity_threshold_filters _ 5 (7 / 10) (by norm_num) doc hd).1

/-! ## C3 — arguments of the orchestrator's similarity search -/

/-- C3 counterexample: on a context-using run, the orchestrator's only
vector-search call has `k = 5` (a hardcoded literal) and **no**
`score_threshold`, not the configured defaults `max_search_results = 10` and
`similarity_threshold = 0.7`. -/
theorem search_called_with_hardcoded_args :
    (.similaritySearchCall 5 none) ∈
      (queryHandler defaultSettings testEnv passingReq emptyMemory).2.2 ∧
    (.similaritySearchCall defaultSettings.maxSearchResults
        (some defaultSettings.similarityThreshold)) ∉
      (queryHandler defaultSettings testEnv passingReq emptyMemory).2.2 := by
  constructor
  · decide
  · decide

/-- C3 (amended): on every run that passes input validation, if context use
was requested the orchestrator performs exactly one vector search, with
`k = 5` (hardcoded) and no `score_threshold`; if context use was not
requested, no search happens and the response carries no sources. -/
theorem search_invocation_args (st : Settings) (env : Env) (req : QueryRequest)
    (mem : MemoryStore) (h : (validateInput st req.query).passed = true) :
    (req.useContext = true →
      (queryHandler st env req mem).2.2 =
        [.validateInputCall, .getShortTermMemoryCall, .similaritySearchCall 5 none,
          .generateCall, .validateOutputCall, .addToShortTermMemoryCall]) ∧
    (req.useContext = false →
      (queryHandler st env req mem).2.2 =
        [.validateInputCall, .getShortTermMemoryCall,
          .generateCall, .validateOutputCall, .addToShortTermMemoryCall] ∧
      (queryHandler st env req mem).1.sources = none) := by
  have hp : ((validateInput st req.query).passed = false) = False := by
    simp [h]
  constructor
  · intro hc
    simp only [queryHandler, hp, if_false, hc, if_true]
    rfl
  · intro hc
    simp only [queryHandler, hp, if_false, hc, if_true]
    constructor
    · rfl
    · simp

/-- Witness for C3's amended theorem on both context settings. -/
theorem search_invocation_args_witness :
    (validateInput defaultSettings passingReq.query).passed = true ∧
    (queryHandler defaultSettings testEnv passingReq emptyMemory).2.2 =
      [.validateInputCall, .getShortTermMemoryCall, .similaritySearchCall 5 none,
        .generateCall, .validateOutputCall, .addToShortTermMemoryCall] ∧
    (queryHandler defaultSettings testEnv
        ⟨passingReq.query, "s1", false, 7 / 10⟩ emptyMemory).1.sources = none := by
  have hp : (validateInput defaultSettings passingReq.query).passed = true := by decide
  refine ⟨hp, ?_, ?_⟩
  · exact (search_invocation_args defaultSettings testEnv passingReq emptyMemory hp).1 rfl
  · exact ((search_invocation_args defaultSettings testEnv
      ⟨passingReq.query, "s1", false, 7 / 10⟩ emptyMemory hp).2 rfl).2

/-! ## C4 — stage ordering within a request -/

/-- C4 counterexample: on a concrete context-using run the recorded service
calls are input validation, then the **short-term memory read**, then the
vector search — the memory read precedes context retrieval, contradicting the
claimed `... → CONTEXT_RETRIEVED → MEMORY_READ → ...` order. -/
theorem memory_read_before_search_run :
    (queryHandler defaultSettings testEnv passingReq emptyMemory).2.2 =
      [.validateInputCall, .getShortTermMemoryCall, .similaritySearchCall 5 none,
        .generateCall, .validateOutputCall, .addToShortTermMemoryCall] := by
  decide

/-- C4 (amended): within every request that passes input validation the
stages run strictly sequentially in the order input validation, short-term
memory read, context retrieval (when requested), generation, output
validation, memory write — i.e. the memory read comes **before** the vector
search, not after it. -/
theorem pipeline_stage_order (st : Settings) (env : Env) (req : QueryRequest)
    (mem : MemoryStore) (h : (validateInput st req.query).passed = true) :
    (queryHandler st env req mem).2.2 =
      [.validateInputCall, .getShortTermMemoryCall] ++
        (if req.useContext then [.similaritySearchCall 5 none] else []) ++
        [.generateCall, .validateOutputCall, .addToShortTermMemoryCall] := by
  have hp : ((validateInput st req.query).passed = false) = False := by
    simp [h]
  simp only [queryHandler, hp, if_false]

/-- Witness for C4's amended theorem. -/
theorem pipeline_stage_order_witness :
    (validateInput defaultSettings passingReq.query).passed = true ∧
    (queryHandler defaultSettings testEnv passingReq emptyMemory).2.2 =
      [.validateInputCall, .getShortTermMemoryCall] ++
        [.similaritySearchCall 5 none] ++
        [.generateCall, .validateOutputCall, .addToShortTermMemoryCall] := by
  have hp : (validateInput defaultSettings passingReq.query).passed = true := by decide
  refine ⟨hp, ?_⟩
  have := pipeline_stage_order defaultSettings testEnv passingReq emptyMemory hp
  rw [this]
  rfl

/-! ## C5 — short-term memory cap and FIFO eviction -/

/-- State of the memory store after a sequence of `add_to_short_term_memory`
calls for one session, starting from empty. -/
def memAfterExchanges (st : Settings) (sessionId : String)
    (es : List MsgPair) : MemoryStore :=
  es.foldl (fun m e => addToShortTermMemory st m sessionId e.user e.ai) emptyMemory

theorem take_append_take (X l : List MsgPair) (n m : Nat) (h : n ≤ m) :
    (X ++ l.take m).take n = (X ++ l).take n := by
  induction X generalizing n with
  | nil =>
    simp only [List.nil_append, List.take_take]
    rw [Nat.min_eq_left h]
  | cons x X ih =>
    cases n with
    | zero => simp
    | succ n' =>
      simp only [List.cons_append, List.take_succ_cons]
      rw [ih n' (by omega)]

theorem stm_foldl_eq (st : Settings) (sessionId : String)
    (hcap : 1 ≤ st.maxShortTermMessages) :
    ∀ (es : List MsgPair) (m : MemoryStore),
      m sessionId = (m sessionId).take st.maxShortTermMessages →
      (es.foldl (fun m e => addToShortTermMemory st m sessionId e.user e.ai) m)
          sessionId =
        (es.reverse ++ m sessionId).take st.maxShortTermMessages := by
  intro es
  induction es with
  | nil =>
    intro m hm
    simpa using hm
  | cons e es ih =>
    intro m hm
    have hstep : (addToShortTermMemory st m sessionId e.user e.ai) sessionId =
        (⟨e.user, e.ai⟩ :: m sessionId).take st.maxShortTermMessages := by
      unfold addToShortTermMemory ltrimKeep
      rw [if_pos rfl, if_neg (by omega)]
    have hself : (addToShortTermMemory st m sessionId e.user e.ai) sessionId =
        ((addToShortTermMemory st m sessionId e.user e.ai) sessionId).take
          st.maxShortTermMessages := by
      rw [hstep, List.take_take, Nat.min_self]
    rw [List.foldl_cons, ih _ hself, hstep]
    rw [take_append_take _ _ _ _ (Nat.le_refl _)]
    have : e = (⟨e.user, e.ai⟩ : MsgPair) := rfl
    simp [List.reverse_cons]

/-- C5: for every session and any sequence of appended exchanges (with the
configured cap at least 1 — Redis `LTRIM 0 -1` would keep everything at cap
0), the retained short-term list is exactly the most recent `cap` exchanges
(most-recent-first), hence never longer than the cap, exactly `cap` long once
more than `cap` have been appended, with the oldest evicted first; retrieval
returns those exchanges in chronological order expanded into user/assistant
turns. -/
theorem short_term_memory_cap (st : Settings) (sessionId : String)
    (es : List MsgPair) (hcap : 1 ≤ st.maxShortTermMessages) :
    (memAfterExchanges st sessionId es) sessionId =
      es.reverse.take st.maxShortTermMessages ∧
    ((memAfterExchanges st sessionId es) sessionId).length ≤
      st.maxShortTermMessages ∧
    (st.maxShortTermMessages < es.length →
      ((memAfterExchanges st sessionId es) sessionId).length =
        st.maxShortTermMessages) ∧
    getShortTermMemory (memAfterExchanges st sessionId es) sessionId =
      expandPairs (es.reverse.take st.maxShortTermMessages).reverse := by
  have hmain : (memAfterExchanges st sessionId es) sessionId =
      es.reverse.take st.maxShortTermMessages := by
    unfold memAfterExchanges
    have := stm_foldl_eq st sessionId hcap es emptyMemory (by simp [emptyMemory])
    simpa [emptyMemory] using this
  refine ⟨hmain, ?_, ?_, ?_⟩
  · rw [hmain, List.length_take]
    omega
  · intro hlong
    rw [hmain, List.length_take, List.length_reverse]
    omega
  · unfold getShortTermMemory
    rw [hmain]

/-- Witness for C5 at cap 2 with three appended exchanges: the two most
recent remain, oldest first evicted. -/
theorem short_term_memory_cap_witness :
    (memAfterExchanges ⟨true, 2000, 4000, 2, 3600, 2592000, 7 / 10, 10⟩ "s1"
        [⟨"u1".toList, "a1".toList⟩, ⟨"u2".toList, "a2".toList⟩,
          ⟨"u3".toList, "a3".toList⟩]) "s1" =
      [⟨"u3".toList, "a3".toList⟩, ⟨"u2".toList, "a2".toList⟩] ∧
    ((memAfterExchanges ⟨true, 2000, 4000, 2, 3600, 2592000, 7 / 10, 10⟩ "s1"
        [⟨"u1".toList, "a1".toList⟩, ⟨"u2".toList, "a2".toList⟩,
          ⟨"u3".toList, "a3".toList⟩]) "s1").length = 2 := by
  have h := short_term_memory_cap ⟨true, 2000, 4000, 2, 3600, 2592000, 7 / 10, 10⟩
    "s1" [⟨"u1".toList, "a1".toList⟩, ⟨"u2".toList, "a2".toList⟩,
      ⟨"u3".toList, "a3".toList⟩] (by decide)
  refine ⟨?_, h.2.2.1 (by decide)⟩
  rw [h.1]
  rfl

/-! ## C6 — `validate_input` on overlong and on clean texts -/

/-- C6 counterexample: the whitespace-only text `"   "` is non-empty, within
the length bound, matches no blocked-content pattern and no PII pattern, yet
`validate_input` blocks it (`str.strip()` emptiness check), so "non-empty"
texts with no pattern match do **not** always pass. -/
theorem whitespace_only_input_blocked :
    ("   ".toList ≠ ([] : List Char)) ∧
    "   ".toList.length ≤ defaultSettings.maxInputLength ∧
    foundBlockedPattern "   ".toList = false ∧
    piiFound "   ".toList = [] ∧
    validateInput defaultSettings "   ".toList =
      ⟨false, some emptyInputMessage, none, []⟩ := by
  refine ⟨by decide, by decide, by decide, by decide, by decide⟩

/-- C6 (amended): for every text longer than the configured maximum input
length, `validate_input` blocks with the length-specific message; and every
text within the bound that is **not whitespace-only** (rather than merely
non-empty — `str.strip()` emptiness blocks whitespace-only texts) and matches
no blocked-content pattern and no PII pattern passes with no warning. -/
theorem validate_input_length_and_clean (st : Settings) (text : List Char)
    (hen : st.guardrailsEnabled = true) :
    (st.maxInputLength < text.length →
      validateInput st text =
        ⟨false, some (inputLengthMessage st.maxInputLength), none, []⟩) ∧
    (text.length ≤ st.maxInputLength → text.all pyWhitespaceChar = false →
      foundBlockedPattern text = false → piiFound text = [] →
      validateInput st text = ⟨true, none, none, []⟩) := by
  constructor
  · intro hlen
    unfold validateInput
    rw [if_neg (by simp [hen]), if_pos hlen]
  · intro hlen hws hbp hpii
    unfold validateInput
    rw [if_neg (by simp [hen]), if_neg (by omega), if_neg (by simp [hws]),
      if_neg (by simp [hbp]), if_pos (by simp [hpii])]

/-- Witness for C6's amended theorem: a 2001-character text blocks with the
length message; "hello there" passes clean. -/
theorem validate_input_length_and_clean_witness :
    validateInput defaultSettings (List.replicate 2001 'a') =
      ⟨false, some (inputLengthMessage 2000), none, []⟩ ∧
    validateInput defaultSettings "hello there".toList = ⟨true, none, none, []⟩ := by
  constructor
  · exact (validate_input_length_and_clean defaultSettings
      (List.replicate 2001 'a') rfl).1
      (by rw [List.length_replicate]; decide)
  · exact (validate_input_length_and_clean defaultSettings
      "hello there".toList rfl).2 (by decide) (by decide) (by decide) (by decide)

/-! ## C7 — asymmetric PII policy -/

/-- C7: PII handling is asymmetric by direction.  A text within bounds, not
whitespace-only and free of blocked-content patterns that matches a PII
pattern makes `validate_input` pass with a non-blocking warning naming the
detected kinds; any text matching a PII pattern makes `validate_output`
return a blocked verdict. -/
theorem pii_direction_asymmetry (st : Settings) (text : List Char)
    (hen : st.guardrailsEnabled = true) :
    (text.length ≤ st.maxInputLength → text.all pyWhitespaceChar = false →
      foundBlockedPattern text = false → piiFound text ≠ [] →
      validateInput st text =
        ⟨true, none, some (piiWarningMessage (piiFound text)), piiFound text⟩) ∧
    (piiFound text ≠ [] → (validateOutput st text).passed = false) := by
  constructor
  · intro hlen hws hbp hpii
    unfold validateInput
    rw [if_neg (by simp [hen]), if_neg (by omega), if_neg (by simp [hws]),
      if_neg (by simp [hbp]), if_neg (by simp [hpii])]
  · intro hpii
    unfold validateOutput
    rw [if_neg (by simp [hen])]
    by_cases hlen : st.maxOutputLength < text.length
    · rw [if_pos hlen]
    · rw [if_neg hlen]
      by_cases hbp : foundBlockedPattern text = true
      · rw [if_pos hbp]
      · rw [if_neg hbp, if_neg (by simp [hpii])]

/-- Witness for C7 at a text containing an email address: input warns and
passes, output blocks. -/
theorem pii_direction_asymmetry_witness :
    piiFound "contact bob@example.com".toList = ["EMAIL"] ∧
    validateInput defaultSettings "contact bob@example.com".toList =
      ⟨true, none, some (piiWarningMessage ["EMAIL"]), ["EMAIL"]⟩ ∧
    (validateOutput defaultSettings "contact bob@example.com".toList).passed =
      false := by
  have hk : piiFound "contact bob@example.com".toList = ["EMAIL"] := by decide
  have h := pii_direction_asymmetry defaultSettings
    "contact bob@example.com".toList rfl
  refine ⟨hk, ?_, h.2 (by decide)⟩
  have := h.1 (by decide) (by decide) (by decide) (by decide)
  rw [hk] at this
  exact this

/-! ## C8 — re-upserting a document id -/

def oldDoc : InputDoc := ⟨"old".toList, "f.txt"⟩

def newDoc : InputDoc := ⟨"new".toList, "f.txt"⟩

def constEmbed : List Char → Except VecErr (List ℚ) := fun _ => .ok [1]

def oldChunk : ChunkData := ⟨"old".toList, "f.txt", "d", 0, [1]⟩

def storeAfterFirst : VectorStore :=
  (addDocuments constEmbed [oldDoc] "d" emptyVectorStore).2

def storeAfterSecond : VectorStore :=
  (addDocuments constEmbed [newDoc] "d" storeAfterFirst).2

/-- C8 counterexample: after storing chunk 0 of document "d" and re-upserting
one new chunk under the same document id, the key `doc:d:0` holds the new
chunk and the old chunk is stored at **no** key — the new chunks replace,
rather than sit alongside, the old ones. -/
theorem reupsert_overwrites_chunk :
    storeAfterFirst ("d", 0) = some oldChunk ∧
    storeAfterSecond ("d", 0) = some ⟨"new".toList, "f.txt", "d", 0, [1]⟩ ∧
    ∀ key : String × Nat, storeAfterSecond key ≠ some oldChunk := by
  have h1 : ∀ key : String × Nat,
      storeAfterFirst key = if key = ("d", 0) then some oldChunk else none := by
    intro key
    simp [storeAfterFirst, addDocuments, collectWrites, constEmbed, storeSet,
      emptyVectorStore, oldDoc, oldChunk]
  have h2 : ∀ key : String × Nat,
      storeAfterSecond key =
        if key = ("d", 0) then some ⟨"new".toList, "f.txt", "d", 0, [1]⟩
        else storeAfterFirst key := by
    intro key
    simp [storeAfterSecond, addDocuments, collectWrites, constEmbed, storeSet,
      newDoc]
  refine ⟨by rw [h1]; rw [if_pos rfl], by rw [h2]; rw [if_pos rfl], ?_⟩
  intro key
  rw [h2]
  by_cases hk : key = ("d", 0)
  · rw [if_pos hk]
    intro hcon
    have := Option.some_inj.mp hcon
    exact absurd (congrArg ChunkData.content this) (by decide)
  · rw [if_neg hk, h1, if_neg hk]
    exact Option.noConfusion

theorem collect_writes_ok (embed : List Char → Except VecErr (List ℚ))
    (did : String) :
    ∀ (docs : List InputDoc) (idx : Nat) (store : VectorStore),
      (∀ d ∈ docs, ∃ emb, embed d.pageContent = .ok emb) →
      ∃ ws, collectWrites embed did docs idx = .ok ws ∧
        ((∀ j d, docs[j]? = some d →
          ∃ emb, embed d.pageContent = .ok emb ∧
            (ws.foldl (fun st w => storeSet st w.1 w.2) store) (did, idx + j) =
              some ⟨d.pageContent, d.filename, did, idx + j, emb⟩) ∧
        (∀ key : String × Nat,
          (key.1 ≠ did ∨ key.2 < idx ∨ idx + docs.length ≤ key.2) →
          (ws.foldl (fun st w => storeSet st w.1 w.2) store) key = store key)) := by
  intro docs
  induction docs with
  | nil =>
    intro idx store _
    refine ⟨[], rfl, ?_, ?_⟩
    · intro j d hj
      simp at hj
    · intro key _
      rfl
  | cons d docs ih =>
    intro idx store hok
    rcases hok d (List.mem_cons_self d docs) with ⟨emb, hemb⟩
    have hok2 : ∀ d2 ∈ docs, ∃ emb2, embed d2.pageContent = .ok emb2 :=
      fun d2 hd2 => hok d2 (List.mem_cons_of_mem d hd2)
    rcases ih (idx + 1) (storeSet store (did, idx)
      ⟨d.pageContent, d.filename, did, idx, emb⟩) hok2 with ⟨ws, hws, hmem, hout⟩
    refine ⟨((did, idx), ⟨d.pageContent, d.filename, did, idx, emb⟩) :: ws, ?_, ?_, ?_⟩
    · unfold collectWrites
      rw [hemb, hws]
    · intro j d2 hj
      cases j with
      | zero =>
        have hd2 : d = d2 := by simpa using hj
        subst hd2
        refine ⟨emb, hemb, ?_⟩
        rw [List.foldl_cons]
        have := hout (did, idx + 0) (by right; left; omega)
        rw [show idx + 0 = idx by omega] at this ⊢
        rw [this]
        unfold storeSet
        rw [if_pos rfl]
      | succ j' =>
        have hj' : docs[j']? = some d2 := by simpa using hj
        rcases hmem j' d2 hj' with ⟨emb2, hemb2, hst⟩
        refine ⟨emb2, hemb2, ?_⟩
        rw [List.foldl_cons]
        rw [show idx + (j' + 1) = idx + 1 + j' by omega]
        exact hst
    · intro key hkey
      rw [List.foldl_cons]
      have hkey2 : key.1 ≠ did ∨ key.2 < idx + 1 ∨ idx + 1 + docs.length ≤ key.2 := by
        rcases hkey with h | h | h
        · left; exact h
        · right; left; omega
        · right; right; simp only [List.length_cons] at h; omega
      rw [hout key hkey2]
      unfold storeSet
      have hne : key ≠ (did, idx) := by
        intro hcon
        subst hcon
        rcases hkey with h | h | h
        · exact h rfl
        · omega
        · simp only [List.length_cons] at h; omega
      rw [if_neg hne]

/-- C8 (amended): re-upserting chunks under an existing `document_id` does
not add them alongside the old ones: each new chunk is written at the key
`doc:{document_id}:{idx}` for its index, overwriting whatever was stored
there, while keys outside the new batch's index range (and other documents)
keep their previous contents.  A caller wanting clean replacement must call
`delete_document` first. -/
theorem reupsert_key_semantics (embed : List Char → Except VecErr (List ℚ))
    (docs : List InputDoc) (did : String) (store : VectorStore)
    (hok : ∀ d ∈ docs, ∃ emb, embed d.pageContent = .ok emb) :
    ∃ store2, addDocuments embed docs did store = (.ok docs.length, store2) ∧
      (∀ j d, docs[j]? = some d →
        ∃ emb, embed d.pageContent = .ok emb ∧
          store2 (did, j) = some ⟨d.pageContent, d.filename, did, j, emb⟩) ∧
      (∀ key : String × Nat, (key.1 ≠ did ∨ docs.length ≤ key.2) →
        store2 key = store key) := by
  rcases collect_writes_ok embed did docs 0 store hok with ⟨ws, hws, hmem, hout⟩
  refine ⟨ws.foldl (fun st w => storeSet st w.1 w.2) store, ?_, ?_, ?_⟩
  · unfold addDocuments
    rw [hws]
  · intro j d hj
    rcases hmem j d hj with ⟨emb, hemb, hst⟩
    rw [show (0 : Nat) + j = j by omega] at hst
    exact ⟨emb, hemb, hst⟩
  · intro key hkey
    apply hout
    rcases hkey with h | h
    · left; exact h
    · right; right; omega

/-- Witness for C8's amended theorem at the concrete one-chunk re-upsert. -/
theorem reupsert_key_semantics_witness :
    ∃ store2,
      addDocuments constEmbed [newDoc] "d" storeAfterFirst = (.ok 1, store2) ∧
        store2 ("d", 0) = some ⟨"new".toList, "f.txt", "d", 0, [1]⟩ ∧
        store2 ("d", 1) = storeAfterFirst ("d", 1) := by
  rcases reupsert_key_semantics constEmbed [newDoc] "d" storeAfterFirst
    (by intro d hd; exact ⟨[1], rfl⟩) with ⟨store2, heq, hmem, hout⟩
  refine ⟨store2, heq, ?_, hout ("d", 1) (by right; simp)⟩
  rcases hmem 0 newDoc rfl with ⟨emb, hemb, hst⟩
  have : emb = [1] := by
    have : Except.ok (ε := VecErr) emb = .ok [1] := hemb.symm.trans rfl
    simpa using this
  subst this
  exact hst

/-! ## C10 — all-or-nothing on embedding failure -/

theorem collect_writes_err (embed : List Char → Except VecErr (List ℚ))
    (did : String) :
    ∀ (docs : List InputDoc) (idx : Nat),
      (∃ d ∈ docs, ∃ e, embed d.pageContent = .error e) →
      ∃ e, collectWrites embed did docs idx = .error e := by
  intro docs
  induction docs with
  | nil =>
    intro idx h
    rcases h with ⟨d, hd, _⟩
    simp at hd
  | cons d docs ih =>
    intro idx h
    unfold collectWrites
    rcases hemb : embed d.pageContent with e | emb
    · exact ⟨e, rfl⟩
    · have : ∃ d2 ∈ docs, ∃ e, embed d2.pageContent = .error e := by
        rcases h with ⟨d2, hd2, e, he⟩
        rcases List.mem_cons.mp hd2 with rfl | hmem
        · rw [hemb] at he; exact Except.noConfusion he
        · exact ⟨d2, hmem, e, he⟩
      rcases ih (idx + 1) this with ⟨e, he⟩
      rw [he]
      exact ⟨e, rfl⟩

/-- C10: `add_documents` buffers all chunk writes in a client-side pipeline
executed only after every chunk has been embedded; if embedding any chunk
fails, the call raises and the vector store is left exactly as it was — no
chunk of the batch is written. -/
theorem add_documents_all_or_nothing
    (embed : List Char → Except VecErr (List ℚ)) (docs : List InputDoc)
    (did : String) (store : VectorStore)
    (h : ∃ d ∈ docs, ∃ e, embed d.pageContent = .error e) :
    ∃ e, addDocuments embed docs did store = (.error e, store) := by
  rcases collect_writes_err embed did docs 0 h with ⟨e, he⟩
  refine ⟨e, ?_⟩
  unfold addDocuments
  rw [he]

/-- Witness for C10: a batch whose second chunk fails to embed leaves the
store untouched and reports the error. -/
theorem add_documents_all_or_nothing_witness :
    ∃ e, addDocuments
        (fun t => if t = "bad".toList then .error .embeddingError else .ok [1])
        [⟨"good".toList, "f.txt"⟩, ⟨"bad".toList, "f.txt"⟩] "d" emptyVectorStore =
      (.error e, emptyVectorStore) := by
  exact add_documents_all_or_nothing _ _ "d" emptyVectorStore
    ⟨⟨"bad".toList, "f.txt"⟩, by simp, .embeddingError, by simp⟩

/-! ## C9 — `sanitize_text` and the email pattern

The development below proves, for the email pass of `sanitize_text` (the last
of the three substitution passes):
(1) its output contains no email-pattern match at all;
(2) every email match present in its input overlaps a replaced span;
(3) the output is the input with `[EMAIL_REDACTED]` standing in place of each
replaced span. -/

def redEmail : List Char := (redactedTag "EMAIL").toList

def prePass (t : List Char) : List Char :=
  reSub matchCCOpt (redactedTag "CC").toList
    (reSub matchSSNOpt (redactedTag "SSN").toList t)

def seqContains (needle hay : List Char) : Bool :=
  scanAny (seqStartsWith needle) hay

theorem word_of_alpha (c : Char) (h : c.isAlpha = true) : pyWordChar c = true := by
  unfold pyWordChar
  rw [h]
  rfl

theorem bd_word_right (s : List Char) (p : Nat) (hp : p ≠ 0) (c : Char)
    (hc : s[p - 1]? = some c) (hw : pyWordChar c = true) (hbd : bd s p = true) :
    isWordO s[p]? = false := by
  unfold bd bdC pcC at hbd
  rw [if_neg hp, hc] at hbd
  rw [show isWordO (some c) = pyWordChar c from rfl, hw] at hbd
  cases hy : isWordO s[p]?
  · rfl
  · rw [hy] at hbd
    exact absurd hbd (by simp)

theorem tryDom_succ (s : List Char) (j d : Nat) :
    tryDom s j (d + 1) =
      if chEq s (j + d + 1) '.' then
        (if 2 ≤ runLen Char.isAlpha s (j + d + 2) &&
            bd s (j + d + 2 + runLen Char.isAlpha s (j + d + 2)) then
          some (j + d + 2 + runLen Char.isAlpha s (j + d + 2))
        else tryDom s j d)
      else tryDom s j d := rfl

theorem tryDom_facts (s : List Char) (j : Nat) :
    ∀ m r, tryDom s j m = some r →
      ∃ cand, 1 ≤ cand ∧ cand ≤ m ∧ s[j + cand]? = some '.' ∧
        2 ≤ runLen Char.isAlpha s (j + cand + 1) ∧
        bd s (j + cand + 1 + runLen Char.isAlpha s (j + cand + 1)) = true ∧
        r = j + cand + 1 + runLen Char.isAlpha s (j + cand + 1) := by
  intro m
  induction m with
  | zero => intro r h; exact Option.noConfusion h
  | succ d ih =>
    intro r h
    rw [tryDom_succ] at h
    by_cases h1 : chEq s (j + d + 1) '.' = true
    · rw [if_pos h1] at h
      by_cases h2 : (2 ≤ runLen Char.isAlpha s (j + d + 2) &&
          bd s (j + d + 2 + runLen Char.isAlpha s (j + d + 2))) = true
      · rw [if_pos h2] at h
        rcases Bool.and_eq_true_iff.mp h2 with ⟨h2a, h2b⟩
        refine ⟨d + 1, by omega, by omega, ?_, ?_, ?_, ?_⟩
        · have := of_decide_eq_true (by simpa [chEq] using h1)
          simpa using this
        · rw [show j + (d + 1) + 1 = j + d + 2 by omega]
          exact of_decide_eq_true h2a
        · rw [show j + (d + 1) + 1 = j + d + 2 by omega]
          exact h2b
        · rw [show j + (d + 1) + 1 = j + d + 2 by omega]
          exact (Option.some_inj.mp h).symm
      · rw [if_neg h2] at h
        rcases ih r h with ⟨cand, hc1, hc2, hrest⟩
        exact ⟨cand, hc1, by omega, hrest⟩
    · rw [if_neg h1] at h
      rcases ih r h with ⟨cand, hc1, hc2, hrest⟩
      exact ⟨cand, hc1, by omega, hrest⟩

theorem tryDom_isSome_of (s : List Char) (j : Nat) :
    ∀ m, (∃ cand, 1 ≤ cand ∧ cand ≤ m ∧ s[j + cand]? = some '.' ∧
        2 ≤ runLen Char.isAlpha s (j + cand + 1) ∧
        bd s (j + cand + 1 + runLen Char.isAlpha s (j + cand + 1)) = true) →
      (tryDom s j m).isSome := by
  intro m
  induction m with
  | zero => intro ⟨cand, hc1, hc2, _⟩; omega
  | succ d ih =>
    intro ⟨cand, hc1, hc2, hdot, hlen, hbd⟩
    rw [tryDom_succ]
    by_cases h1 : chEq s (j + d + 1) '.' = true
    · rw [if_pos h1]
      by_cases h2 : (2 ≤ runLen Char.isAlpha s (j + d + 2) &&
          bd s (j + d + 2 + runLen Char.isAlpha s (j + d + 2))) = true
      · rw [if_pos h2]; rfl
      · rw [if_neg h2]
        apply ih
        refine ⟨cand, hc1, ?_, hdot, hlen, hbd⟩
        rcases Nat.lt_or_ge cand (d + 1) with hlt | hge
        · omega
        · exfalso
          have hcand : cand = d + 1 := by omega
          subst hcand
          apply h2
          rw [show j + d + 2 = j + (d + 1) + 1 by omega]
          simp only [Bool.and_eq_true, decide_eq_true_eq]
          exact ⟨hlen, hbd⟩
    · rw [if_neg h1]
      apply ih
      refine ⟨cand, hc1, ?_, hdot, hlen, hbd⟩
      rcases Nat.lt_or_ge cand (d + 1) with hlt | hge
      · omega
      · exfalso
        have hcand : cand = d + 1 := by omega
        subst hcand
        apply h1
        rw [show j + d + 1 = j + (d + 1) by omega]
        simp [chEq, hdot]

theorem matchEmail_struct (s : List Char) (i e : Nat)
    (h : matchEmailAt s i = some e) :
    bd s i = true ∧ 1 ≤ runLen emailLocalChar s i ∧
      s[i + runLen emailLocalChar s i]? = some '@' ∧
      tryDom s (i + runLen emailLocalChar s i + 1)
        (runLen emailDomainChar s (i + runLen emailLocalChar s i + 1)) = some e := by
  unfold matchEmailAt at h
  by_cases hbd : bd s i = true
  · rw [if_pos hbd] at h
    simp only at h
    by_cases hl : runLen emailLocalChar s i = 0
    · rw [if_pos hl] at h; exact Option.noConfusion h
    · rw [if_neg hl] at h
      by_cases hat : chEq s (i + runLen emailLocalChar s i) '@' = true
      · rw [if_pos hat] at h
        have hat2 : s[i + runLen emailLocalChar s i]? = some '@' := by
          simpa [chEq] using of_decide_eq_true (by simpa [chEq] using hat)
        exact ⟨hbd, by omega, hat2, h⟩
      · rw [if_neg hat] at h; exact Option.noConfusion h
  · rw [if_neg hbd] at h; exact Option.noConfusion h

theorem matchEmail_bounds (s : List Char) (i e : Nat)
    (h : matchEmailAt s i = some e) :
    i + 5 ≤ e ∧ e ≤ s.length ∧ bd s e = true ∧ isWordO s[e]? = false ∧
      bd s i = true := by
  rcases matchEmail_struct s i e h with ⟨hbd, hl, hat, htd⟩
  rcases tryDom_facts s (i + runLen emailLocalChar s i + 1) _ e htd with
    ⟨cand, hc1, _, hdot, hk, hbde, hre⟩
  set l := runLen emailLocalChar s i with hldef
  set L := runLen Char.isAlpha s (i + l + 1 + cand + 1) with hLdef
  rcases runLen_mem Char.isAlpha s (i + l + 1 + cand + 1) (L - 1) (by omega) with
    ⟨c, hc, hca⟩
  have hce : s[e - 1]? = some c := by
    rw [show e - 1 = i + l + 1 + cand + 1 + (L - 1) by omega]
    exact hc
  have helen : e ≤ s.length := by
    by_contra hcon
    rw [List.getElem?_eq_none_iff.mpr (by omega)] at hce
    exact Option.noConfusion hce
  have hbdee : bd s e = true := by rw [hre]; exact hbde
  have hword : isWordO s[e]? = false :=
    bd_word_right s e (by omega) c hce (word_of_alpha c hca) hbdee
  exact ⟨by omega, helen, hbdee, hword, hbd⟩

theorem matchEmail_soundness (s : List Char) (i e : Nat)
    (h : matchEmailAt s i = some e) : EmailMatchW s i e := by
  rcases matchEmail_struct s i e h with ⟨hbd, hl, hat, htd⟩
  rcases tryDom_facts s (i + runLen emailLocalChar s i + 1) _ e htd with
    ⟨cand, hc1, hc2, hdot, hk, hbde, hre⟩
  set l := runLen emailLocalChar s i with hldef
  refine ⟨hbd, l, cand, runLen Char.isAlpha s (i + l + 1 + cand + 1),
    by omega, by omega, hk, by omega, ?_, hat, ?_, hdot, ?_, ?_⟩
  · intro q hq
    exact runLen_mem emailLocalChar s i q hq
  · intro q hq
    exact runLen_mem emailDomainChar s (i + l + 1) q (by omega)
  · intro q hq
    exact runLen_mem Char.isAlpha s (i + l + 1 + cand + 1) q hq
  · rw [hre]
    exact hbde

theorem matchEmail_complete (s : List Char) (i j : Nat)
    (hM : EmailMatchW s i j) : (matchEmailAt s i).isSome := by
  rcases hM with ⟨hbd, l, d, k, hl, hd, hk, hj, hloc, hat, hdom, hdot, htld, hbde⟩
  have hrl : runLen emailLocalChar s i = l := by
    apply runLen_eq_of
    · exact hloc
    · right; exact ⟨'@', hat, by decide⟩
  have hrk : runLen Char.isAlpha s (i + l + 1 + d + 1) = k := by
    apply runLen_eq_of
    · exact htld
    · have hjpos : j = i + l + 1 + d + 1 + k := hj
      rcases htld (k - 1) (by omega) with ⟨c, hc, hca⟩
      have hcj : s[j - 1]? = some c := by
        rw [show j - 1 = i + l + 1 + d + 1 + (k - 1) by omega]
        exact hc
      have hword : isWordO s[j]? = false :=
        bd_word_right s j (by omega) c hcj (word_of_alpha c hca) hbde
      rcases hx : s[i + l + 1 + d + 1 + k]? with _ | c2
      · left; rfl
      · right
        refine ⟨c2, rfl, ?_⟩
        rw [← hjpos] at hx
        rw [hx] at hword
        by_contra hca2
        have hca3 : c2.isAlpha = true := by simpa using hca2
        rw [show isWordO (some c2) = pyWordChar c2 from rfl,
          word_of_alpha c2 hca3] at hword
        exact absurd hword (by simp)
  have hbd2 : bd s i = true := hbd
  unfold matchEmailAt
  rw [if_pos hbd2]
  simp only
  rw [hrl, if_neg (by omega)]
  have hchq : chEq s (i + l) '@' = true := by simp [chEq, hat]
  rw [if_pos hchq]
  apply tryDom_isSome_of
  refine ⟨d, hd, ?_, ?_, ?_, ?_⟩
  · apply runLen_ge_of
    intro q hq
    exact hdom q hq
  · exact hdot
  · rw [hrk]
    exact hk
  · rw [hrk]
    rw [show i + l + 1 + d + 1 + k = j by omega]
    exact hbde

theorem reSubFrom_succ (m : List Char → Nat → Option Nat) (rep s : List Char)
    (f i : Nat) :
    reSubFrom m rep s (f + 1) i =
      match s[i]? with
      | none => []
      | some c =>
        match m s i with
        | some e => rep ++ reSubFrom m rep s f e
        | none => c :: reSubFrom m rep s f (i + 1) := rfl

theorem reSubFrom_succ_none (m : List Char → Nat → Option Nat) (rep s : List Char)
    (f i : Nat) (hc : s[i]? = none) : reSubFrom m rep s (f + 1) i = [] := by
  rw [reSubFrom_succ, hc]

theorem reSubFrom_succ_match (m : List Char → Nat → Option Nat) (rep s : List Char)
    (f i : Nat) (c : Char) (e : Nat) (hc : s[i]? = some c) (hm : m s i = some e) :
    reSubFrom m rep s (f + 1) i = rep ++ reSubFrom m rep s f e := by
  rw [reSubFrom_succ, hc, hm]

theorem reSubFrom_succ_step (m : List Char → Nat → Option Nat) (rep s : List Char)
    (f i : Nat) (c : Char) (hc : s[i]? = some c) (hm : m s i = none) :
    reSubFrom m rep s (f + 1) i = c :: reSubFrom m rep s f (i + 1) := by
  rw [reSubFrom_succ, hc, hm]

theorem spansFrom_succ (m : List Char → Nat → Option Nat) (s : List Char)
    (f i : Nat) :
    spansFrom m s (f + 1) i =
      match s[i]? with
      | none => []
      | some _ =>
        match m s i with
        | some e => (i, e) :: spansFrom m s f e
        | none => spansFrom m s f (i + 1) := rfl

theorem spansFrom_succ_none (m : List Char → Nat → Option Nat) (s : List Char)
    (f i : Nat) (hc : s[i]? = none) : spansFrom m s (f + 1) i = [] := by
  rw [spansFrom_succ, hc]

theorem spansFrom_succ_match (m : List Char → Nat → Option Nat) (s : List Char)
    (f i : Nat) (c : Char) (e : Nat) (hc : s[i]? = some c) (hm : m s i = some e) :
    spansFrom m s (f + 1) i = (i, e) :: spansFrom m s f e := by
  rw [spansFrom_succ, hc, hm]

theorem spansFrom_succ_step (m : List Char → Nat → Option Nat) (s : List Char)
    (f i : Nat) (c : Char) (hc : s[i]? = some c) (hm : m s i = none) :
    spansFrom m s (f + 1) i = spansFrom m s f (i + 1) := by
  rw [spansFrom_succ, hc, hm]

theorem seg_getElem (s : List Char) (i n q : Nat) (hq : q < n - i) :
    ((s.drop i).take (n - i))[q]? = s[i + q]? := by
  rw [List.getElem?_take_of_lt hq, List.getElem?_drop]

theorem lt_length_of_getElem (s : List Char) (i : Nat) (c : Char)
    (hc : s[i]? = some c) : i < s.length := by
  by_contra hcon
  rw [List.getElem?_eq_none_iff.mpr (Nat.le_of_not_lt hcon)] at hc
  exact Option.noConfusion hc

theorem drop_cons_of_getElem (s : List Char) (i : Nat) (c : Char)
    (hc : s[i]? = some c) : s.drop i = c :: s.drop (i + 1) := by
  have hlt : i < s.length := lt_length_of_getElem s i c hc
  rw [List.drop_eq_getElem_cons hlt]
  have hval : s[i] = c := by
    have h2 := List.getElem?_eq_getElem hlt
    rw [hc] at h2
    exact (Option.some_inj.mp h2).symm
  rw [hval]

/-- Structure of the email pass's output from cursor `i`: an untouched gap
`s[i..n)` on which the scanner found no match, followed either by nothing
(end of string) or by the replacement (whose first character is `[`) put in
place of a match found at `n`. -/
theorem gapStruct (s : List Char) :
    ∀ fuel i, s.length + 1 ≤ fuel + i → i ≤ s.length →
      ∃ n, i ≤ n ∧ n ≤ s.length ∧
        (∀ p, i ≤ p → p < n → matchEmailAt s p = none) ∧
        ((reSubFrom matchEmailAt redEmail s fuel i = (s.drop i).take (n - i) ∧
            n = s.length) ∨
          (∃ tail, (matchEmailAt s n).isSome ∧
            reSubFrom matchEmailAt redEmail s fuel i =
              (s.drop i).take (n - i) ++ '[' :: tail)) := by
  intro fuel
  induction fuel with
  | zero => intro i h1 h2; omega
  | succ f ih =>
    intro i h1 h2
    rcases hc : s[i]? with _ | c
    · have hi : s.length ≤ i := List.getElem?_eq_none_iff.mp hc
      refine ⟨i, Nat.le_refl i, by omega, fun p hp1 hp2 => by omega, ?_⟩
      left
      refine ⟨?_, by omega⟩
      rw [reSubFrom_succ_none matchEmailAt redEmail s f i hc, Nat.sub_self]
      simp
    · have hilen : i < s.length := lt_length_of_getElem s i c hc
      rcases hm : matchEmailAt s i with _ | e
      · rcases ih (i + 1) (by omega) (by omega) with ⟨n, hn1, hn2, hnone, hrest⟩
        refine ⟨n, by omega, hn2, ?_, ?_⟩
        · intro p hp1 hp2
          rcases Nat.eq_or_lt_of_le hp1 with heq | hlt
          · rw [← heq]; exact hm
          · exact hnone p hlt hp2
        · have hsub := reSubFrom_succ_step matchEmailAt redEmail s f i c hc hm
          have hdrop := drop_cons_of_getElem s i c hc
          have htake : (s.drop i).take (n - i) =
              c :: (s.drop (i + 1)).take (n - (i + 1)) := by
            rw [hdrop, show n - i = (n - (i + 1)) + 1 by omega, List.take_succ_cons]
          rcases hrest with ⟨hL, hnlen⟩ | ⟨tail, hsome, hR⟩
          · left
            refine ⟨?_, hnlen⟩
            rw [hsub, hL, htake]
          · right
            refine ⟨tail, hsome, ?_⟩
            rw [hsub, hR, htake]
            rfl
      · refine ⟨i, Nat.le_refl i, by omega, fun p hp1 hp2 => by omega, ?_⟩
        right
        refine ⟨"EMAIL_REDACTED]".toList ++ reSubFrom matchEmailAt redEmail s f e,
          by rw [hm]; rfl, ?_⟩
        rw [reSubFrom_succ_match matchEmailAt redEmail s f i c e hc hm, Nat.sub_self]
        simp only [List.take_zero, List.nil_append]
        rfl

theorem emailMatch_nil (γ : Option Char) (p j : Nat) :
    ¬ EmailMatchAtC γ ([] : List Char) p j := by
  intro ⟨_, l, d, k, hl, _, _, _, hloc, _⟩
  rcases hloc 0 (by omega) with ⟨c, hc, _⟩
  rw [List.getElem?_nil] at hc
  exact Option.noConfusion hc

theorem noStartInRed (γ : Option Char) (T : List Char) (p j : Nat)
    (hp : p < redEmail.length) : ¬ EmailMatchAtC γ (redEmail ++ T) p j := by
  intro ⟨hbd, l, d, k, hl, hd, hk, hj, hloc, hat, _⟩
  have hlen : redEmail.length = 16 := by decide
  rw [hlen] at hp
  rcases Nat.lt_or_ge (p + l) 16 with hlt | hge
  · rw [List.getElem?_append, if_pos (by omega)] at hat
    have hno : ∀ q, q < 16 → redEmail[q]? ≠ some '@' := by decide
    exact hno (p + l) (by omega) hat
  · rcases hloc (15 - p) (by omega) with ⟨c, hc, hlocc⟩
    rw [show p + (15 - p) = 15 by omega] at hc
    rw [List.getElem?_append, if_pos (by omega)] at hc
    have h15 : redEmail[15]? = some ']' := by decide
    rw [h15] at hc
    have : ']' = c := Option.some_inj.mp hc
    rw [← this] at hlocc
    exact absurd hlocc (by decide)

theorem bdC_cons (γ : Option Char) (c : Char) (T : List Char) (q : Nat) :
    bdC γ (c :: T) (q + 1) = bdC (some c) T q := by
  cases q with
  | zero => simp [bdC, pcC]
  | succ q' => simp [bdC, pcC]

theorem emailMatch_shiftOne (γ : Option Char) (c : Char) (T : List Char)
    (p j : Nat) (h : EmailMatchAtC γ (c :: T) (p + 1) j) :
    EmailMatchAtC (some c) T p (j - 1) := by
  obtain ⟨hbd, l, d, k, hl, hd, hk, hj, hloc, hat, hdom, hdot, htld, hbde⟩ := h
  rw [bdC_cons] at hbd
  refine ⟨hbd, l, d, k, hl, hd, hk, by omega, ?_, ?_, ?_, ?_, ?_, ?_⟩
  · intro q hq
    rcases hloc q hq with ⟨c2, hc2, hl2⟩
    rw [show p + 1 + q = (p + q) + 1 by omega, List.getElem?_cons_succ] at hc2
    exact ⟨c2, hc2, hl2⟩
  · rw [show p + 1 + l = (p + l) + 1 by omega, List.getElem?_cons_succ] at hat
    exact hat
  · intro q hq
    rcases hdom q hq with ⟨c2, hc2, hl2⟩
    rw [show p + 1 + l + 1 + q = (p + l + 1 + q) + 1 by omega,
      List.getElem?_cons_succ] at hc2
    exact ⟨c2, hc2, hl2⟩
  · rw [show p + 1 + l + 1 + d = (p + l + 1 + d) + 1 by omega,
      List.getElem?_cons_succ] at hdot
    exact hdot
  · intro q hq
    rcases htld q hq with ⟨c2, hc2, hl2⟩
    rw [show p + 1 + l + 1 + d + 1 + q = (p + l + 1 + d + 1 + q) + 1 by omega,
      List.getElem?_cons_succ] at hc2
    exact ⟨c2, hc2, hl2⟩
  · rw [show j = (j - 1) + 1 by omega, bdC_cons] at hbde
    exact hbde

theorem emailMatch_shiftOne' (γ : Option Char) (c : Char) (T : List Char)
    (p j : Nat) (hp : 1 ≤ p) (h : EmailMatchAtC γ (c :: T) p j) :
    EmailMatchAtC (some c) T (p - 1) (j - 1) := by
  apply emailMatch_shiftOne γ c T (p - 1) j
  rw [show p - 1 + 1 = p by omega]
  exact h

theorem emailMatch_shiftMany :
    ∀ (X : List Char) (γ : Option Char) (gc : Char) (T : List Char) (p j : Nat),
      X.getLast? = some gc → X.length ≤ p → EmailMatchAtC γ (X ++ T) p j →
      EmailMatchAtC (some gc) T (p - X.length) (j - X.length) := by
  intro X
  induction X with
  | nil => intro γ gc T p j hlast _ _; exact Option.noConfusion hlast
  | cons x X ih =>
    intro γ gc T p j hlast hlen h
    cases X with
    | nil =>
      have hgc : gc = x := by
        have h1 : [x].getLast? = some x := rfl
        rw [h1] at hlast
        exact (Option.some_inj.mp hlast).symm
      subst hgc
      simp only [List.length_cons, List.length_nil] at hlen ⊢
      have := emailMatch_shiftOne' γ gc T p j (by omega) (by simpa using h)
      simpa using this
    | cons y Y =>
      rw [List.getLast?_cons_cons] at hlast
      have hstep := emailMatch_shiftOne' γ x ((y :: Y) ++ T) p j
        (by simp only [List.length_cons] at hlen; omega) h
      have hrec := ih (some x) gc T (p - 1) (j - 1) hlast
        (by simp only [List.length_cons] at hlen ⊢; omega) hstep
      have hp2 : p - (x :: y :: Y).length = p - 1 - (y :: Y).length := by
        simp only [List.length_cons]
        omega
      have hj2 : j - (x :: y :: Y).length = j - 1 - (y :: Y).length := by
        simp only [List.length_cons]
        omega
      rw [hp2, hj2]
      exact hrec

theorem emailMatch_shiftRed (γ : Option Char) (T : List Char) (p j : Nat)
    (hp : 16 ≤ p) (h : EmailMatchAtC γ (redEmail ++ T) p j) :
    EmailMatchAtC (some ']') T (p - 16) (j - 16) := by
  have hlast : redEmail.getLast? = some ']' := by decide
  have hlen : redEmail.length = 16 := by decide
  have := emailMatch_shiftMany redEmail γ ']' T p j hlast (by omega) h
  rw [hlen] at this
  exact this

/-- Every character strictly inside an email match belongs to one of the
pattern's character classes (none of which contains `[`). -/
def emailAnyChar (c : Char) : Bool :=
  emailLocalChar c || c == '@' || emailDomainChar c || c == '.' || c.isAlpha

theorem emailMatch_chars (γ : Option Char) (T : List Char) (j : Nat)
    (h : EmailMatchAtC γ T 0 j) :
    ∀ q, q < j → ∃ c, T[q]? = some c ∧ emailAnyChar c = true := by
  obtain ⟨_, l, d, k, hl, hd, hk, hj, hloc, hat, hdom, hdot, htld, _⟩ := h
  intro q hq
  by_cases h1 : q < l
  · rcases hloc q h1 with ⟨c, hc, hcc⟩
    rw [Nat.zero_add] at hc
    exact ⟨c, hc, by simp [emailAnyChar, hcc]⟩
  · by_cases h2 : q = l
    · refine ⟨'@', ?_, by decide⟩
      rw [Nat.zero_add] at hat
      rw [h2]
      exact hat
    · by_cases h3 : q < l + 1 + d
      · rcases hdom (q - (l + 1)) (by omega) with ⟨c, hc, hcc⟩
        rw [show 0 + l + 1 + (q - (l + 1)) = q by omega] at hc
        exact ⟨c, hc, by simp [emailAnyChar, hcc]⟩
      · by_cases h4 : q = l + 1 + d
        · refine ⟨'.', ?_, by decide⟩
          rw [show 0 + l + 1 + d = l + 1 + d by omega] at hdot
          rw [h4]
          exact hdot
        · rcases htld (q - (l + 1 + d + 1)) (by omega) with ⟨c, hc, hcc⟩
          rw [show 0 + l + 1 + d + 1 + (q - (l + 1 + d + 1)) = q by omega] at hc
          exact ⟨c, hc, by simp [emailAnyChar, hcc]⟩

theorem bd_transfer (s T : List Char) (i p : Nat) (γ2 : Option Char)
    (hp : p ≠ 0) (h1 : T[p - 1]? = s[i + p - 1]?) (h2 : T[p]? = s[i + p]?)
    (hb : bdC γ2 T p = true) : bdC none s (i + p) = true := by
  unfold bdC pcC at hb ⊢
  rw [if_neg hp] at hb
  rw [if_neg (by omega)]
  rw [h1, h2] at hb
  rw [show i + p - 1 = i + (p - 1) by omega] at hb ⊢
  exact hb

theorem bd_transfer0 (s T : List Char) (i : Nat) (γ : Option Char)
    (h0 : T[0]? = s[i]?) (hok : isWordO γ = isWordO (pcC none s i))
    (hb : bdC γ T 0 = true) : bdC none s i = true := by
  have hb2 : (isWordO γ != isWordO T[0]?) = true := by
    have : bdC γ T 0 = (isWordO γ != isWordO T[0]?) := by simp [bdC, pcC]
    rw [← this]
    exact hb
  show (isWordO (pcC none s i) != isWordO s[i]?) = true
  rw [← hok, ← h0]
  exact hb2

theorem transfer_match (s : List Char) (γ : Option Char) (T : List Char)
    (i n j : Nat) (_hin : i < n)
    (hget : ∀ q, q < n - i → T[q]? = s[i + q]?)
    (hjle : j ≤ n - i)
    (hok : isWordO γ = isWordO (pcC none s i))
    (hbdend : bdC none s (i + j) = true)
    (hM : EmailMatchAtC γ T 0 j) :
    EmailMatchW s i (i + j) := by
  obtain ⟨hbd0, l, d, k, hl, hd, hk, hj, hloc, hat, hdom, hdot, htld, _⟩ := hM
  refine ⟨bd_transfer0 s T i γ (hget 0 (by omega)) hok hbd0,
    l, d, k, hl, hd, hk, by omega, ?_, ?_, ?_, ?_, ?_, hbdend⟩
  · intro q hq
    rcases hloc q hq with ⟨c, hc, hcc⟩
    rw [Nat.zero_add] at hc
    refine ⟨c, ?_, hcc⟩
    rw [← hget q (by omega)]
    exact hc
  · rw [Nat.zero_add] at hat
    rw [show i + l = i + l by rfl, ← hget l (by omega)]
    exact hat
  · intro q hq
    rcases hdom q hq with ⟨c, hc, hcc⟩
    rw [show 0 + l + 1 + q = l + 1 + q by omega] at hc
    refine ⟨c, ?_, hcc⟩
    rw [show i + l + 1 + q = i + (l + 1 + q) by omega, ← hget (l + 1 + q) (by omega)]
    exact hc
  · rw [show 0 + l + 1 + d = l + 1 + d by omega] at hdot
    rw [show i + l + 1 + d = i + (l + 1 + d) by omega, ← hget (l + 1 + d) (by omega)]
    exact hdot
  · intro q hq
    rcases htld q hq with ⟨c, hc, hcc⟩
    rw [show 0 + l + 1 + d + 1 + q = l + 1 + d + 1 + q by omega] at hc
    refine ⟨c, ?_, hcc⟩
    rw [show i + l + 1 + d + 1 + q = i + (l + 1 + d + 1 + q) by omega,
      ← hget (l + 1 + d + 1 + q) (by omega)]
    exact hc

/-- No email match starts at the very beginning of the scan's output from
cursor `i`, provided the left-context character `γ` either has the word-value
of the true left context of `s` at `i`, or is non-word with `s[i]` non-word
(the configuration right after an emitted replacement). -/
theorem headNoMatch (s : List Char) (fuel i : Nat) (γ : Option Char)
    (hfuel : s.length + 1 ≤ fuel + i) (hi : i ≤ s.length)
    (hγ : (isWordO γ = isWordO (pcC none s i)) ∨
      (isWordO γ = false ∧ isWordO s[i]? = false)) :
    ∀ j, ¬ EmailMatchAtC γ (reSubFrom matchEmailAt redEmail s fuel i) 0 j := by
  intro j hM
  rcases gapStruct s fuel i hfuel hi with ⟨n, hn1, hn2, hnone, hrest⟩
  rcases hrest with ⟨hTeq, hnlen⟩ | ⟨tail, hsomeN, hTeq⟩
  · -- gap runs to the end of the string
    rcases Nat.eq_or_lt_of_le hn1 with heq | hin
    · have hTnil : reSubFrom matchEmailAt redEmail s fuel i = [] := by
        rw [hTeq, ← heq, Nat.sub_self, List.take_zero]
      rw [hTnil] at hM
      exact emailMatch_nil γ 0 j hM
    · have hget : ∀ q, q < n - i →
          (reSubFrom matchEmailAt redEmail s fuel i)[q]? = s[i + q]? := by
        intro q hq
        rw [hTeq]
        exact seg_getElem s i n q hq
      have hTlen : (reSubFrom matchEmailAt redEmail s fuel i).length = n - i := by
        rw [hTeq, List.length_take, List.length_drop]
        omega
      have hjle : j ≤ n - i := by
        by_contra hcon
        rcases emailMatch_chars γ _ j hM (n - i) (by omega) with ⟨c, hc, _⟩
        rw [List.getElem?_eq_none_iff.mpr (by omega)] at hc
        exact Option.noConfusion hc
      rcases hγ with hok | ⟨hγ1, hγ2⟩
      · have hTj : (reSubFrom matchEmailAt redEmail s fuel i)[j]? = s[i + j]? := by
          rcases Nat.lt_or_ge j (n - i) with hjlt | hjge
          · exact hget j hjlt
          · have h1 : (reSubFrom matchEmailAt redEmail s fuel i)[j]? = none :=
              List.getElem?_eq_none_iff.mpr (by omega)
            have h2 : s[i + j]? = none :=
              List.getElem?_eq_none_iff.mpr (by omega)
            rw [h1, h2]
        have hM2 := hM
        obtain ⟨_, l, d, k, hl, hd, hk, hjeq, _, _, _, _, _, hbde⟩ := hM2
        have hj1 : 1 ≤ j := by omega
        have hTj1 : (reSubFrom matchEmailAt redEmail s fuel i)[j - 1]? =
            s[i + j - 1]? := by
          have := hget (j - 1) (by omega)
          rw [show i + (j - 1) = i + j - 1 by omega] at this
          exact this
        have hbdend : bdC none s (i + j) = true :=
          bd_transfer s _ i j γ (by omega) hTj1 hTj hbde
        have hW : EmailMatchW s i (i + j) :=
          transfer_match s γ _ i n j hin hget hjle hok hbdend hM
        have hcomp := matchEmail_complete s i (i + j) hW
        rw [hnone i (Nat.le_refl i) hin] at hcomp
        exact absurd hcomp (by simp)
      · have hM2 := hM
        obtain ⟨hbd0, _⟩ := hM2
        have h0 : (reSubFrom matchEmailAt redEmail s fuel i)[0]? = s[i]? := by
          have := hget 0 (by omega)
          rw [show i + 0 = i by omega] at this
          exact this
        have : bdC γ (reSubFrom matchEmailAt redEmail s fuel i) 0 =
            (isWordO γ != isWordO (reSubFrom matchEmailAt redEmail s fuel i)[0]?) := by
          simp [bdC, pcC]
        rw [this, h0, hγ1, hγ2] at hbd0
        exact absurd hbd0 (by simp)
  · -- gap followed by a replacement starting at n
    rcases Nat.eq_or_lt_of_le hn1 with heq | hin
    · have hT0 : (reSubFrom matchEmailAt redEmail s fuel i)[0]? = some '[' := by
        rw [hTeq, ← heq, Nat.sub_self, List.take_zero, List.nil_append]
        simp
      have hM2 := hM
      obtain ⟨_, l, d, k, hl, _, _, _, hloc, _⟩ := hM2
      rcases hloc 0 (by omega) with ⟨c0, hc0, hc0l⟩
      rw [show 0 + 0 = 0 by omega] at hc0
      rw [hT0] at hc0
      have : '[' = c0 := Option.some_inj.mp hc0
      rw [← this] at hc0l
      exact absurd hc0l (by decide)
    · have hseglen : ((s.drop i).take (n - i)).length = n - i := by
        rw [List.length_take, List.length_drop]
        omega
      have hget : ∀ q, q < n - i →
          (reSubFrom matchEmailAt redEmail s fuel i)[q]? = s[i + q]? := by
        intro q hq
        rw [hTeq, List.getElem?_append, if_pos (by rw [hseglen]; exact hq)]
        exact seg_getElem s i n q hq
      have hbracket : (reSubFrom matchEmailAt redEmail s fuel i)[n - i]? =
          some '[' := by
        rw [hTeq, List.getElem?_append, if_neg (by rw [hseglen]; omega)]
        rw [show n - i - ((s.drop i).take (n - i)).length = 0 by rw [hseglen]; omega]
        simp
      have hjle : j ≤ n - i := by
        by_contra hcon
        rcases emailMatch_chars γ _ j hM (n - i) (by omega) with ⟨c, hc, hcc⟩
        rw [hbracket] at hc
        have : '[' = c := Option.some_inj.mp hc
        rw [← this] at hcc
        exact absurd hcc (by decide)
      rcases hγ with hok | ⟨hγ1, hγ2⟩
      · rcases Nat.lt_or_ge j (n - i) with hjlt | hjge
        · have hM2 := hM
          obtain ⟨_, l, d, k, hl, hd, hk, hjeq, _, _, _, _, _, hbde⟩ := hM2
          have hj1 : 1 ≤ j := by omega
          have hTj1 : (reSubFrom matchEmailAt redEmail s fuel i)[j - 1]? =
              s[i + j - 1]? := by
            have := hget (j - 1) (by omega)
            rw [show i + (j - 1) = i + j - 1 by omega] at this
            exact this
          have hbdend : bdC none s (i + j) = true :=
            bd_transfer s _ i j γ (by omega) hTj1 (hget j hjlt) hbde
          have hW : EmailMatchW s i (i + j) :=
            transfer_match s γ _ i n j hin hget hjle hok hbdend hM
          have hcomp := matchEmail_complete s i (i + j) hW
          rw [hnone i (Nat.le_refl i) hin] at hcomp
          exact absurd hcomp (by simp)
        · have hje : j = n - i := by omega
          rcases Option.isSome_iff_exists.mp hsomeN with ⟨e, he⟩
          have hbdn : bd s n = true := (matchEmail_bounds s n e he).2.2.2.2
          have hbdend : bdC none s (i + j) = true := by
            rw [show i + j = n by omega]
            exact hbdn
          have hW : EmailMatchW s i (i + j) :=
            transfer_match s γ _ i n j hin hget hjle hok hbdend hM
          have hcomp := matchEmail_complete s i (i + j) hW
          rw [hnone i (Nat.le_refl i) hin] at hcomp
          exact absurd hcomp (by simp)
      · have hM2 := hM
        obtain ⟨hbd0, _⟩ := hM2
        have h0 : (reSubFrom matchEmailAt redEmail s fuel i)[0]? = s[i]? := by
          have := hget 0 (by omega)
          rw [show i + 0 = i by omega] at this
          exact this
        have : bdC γ (reSubFrom matchEmailAt redEmail s fuel i) 0 =
            (isWordO γ != isWordO (reSubFrom matchEmailAt redEmail s fuel i)[0]?) := by
          simp [bdC, pcC]
        rw [this, h0, hγ1, hγ2] at hbd0
        exact absurd hbd0 (by simp)

/-- No email match anywhere in the scan's output (main invariant). -/
theorem subNoMatch (s : List Char) :
    ∀ fuel i γ, s.length + 1 ≤ fuel + i → i ≤ s.length →
      ((isWordO γ = isWordO (pcC none s i)) ∨
        (isWordO γ = false ∧ isWordO s[i]? = false)) →
      ∀ p j, ¬ EmailMatchAtC γ (reSubFrom matchEmailAt redEmail s fuel i) p j := by
  intro fuel
  induction fuel with
  | zero => intro i γ h1 h2; omega
  | succ f ih =>
    intro i γ h1 h2 hγ p j hM
    rcases hc : s[i]? with _ | c
    · rw [reSubFrom_succ_none matchEmailAt redEmail s f i hc] at hM
      exact emailMatch_nil γ p j hM
    · have hilen : i < s.length := lt_length_of_getElem s i c hc
      rcases hm : matchEmailAt s i with _ | e
      · rw [reSubFrom_succ_step matchEmailAt redEmail s f i c hc hm] at hM
        cases p with
        | zero =>
          have hhd := headNoMatch s (f + 1) i γ h1 h2 hγ j
          rw [reSubFrom_succ_step matchEmailAt redEmail s f i c hc hm] at hhd
          exact hhd hM
        | succ p' =>
          have hstep := emailMatch_shiftOne γ c _ p' j hM
          have hγ2 : isWordO (some c) = isWordO (pcC none s (i + 1)) := by
            have : pcC none s (i + 1) = s[i]? := by
              simp [pcC]
            rw [this, hc]
          exact ih (i + 1) (some c) (by omega) (by omega) (Or.inl hγ2) p' (j - 1) hstep
      · rw [reSubFrom_succ_match matchEmailAt redEmail s f i c e hc hm] at hM
        rcases Nat.lt_or_ge p 16 with hp | hp
        · exact noStartInRed γ _ p j (by rw [show redEmail.length = 16 from by decide]; exact hp) hM
        · have hshift := emailMatch_shiftRed γ _ p j hp hM
          rcases matchEmail_bounds s i e hm with ⟨he1, he2, _, hword, _⟩
          have hγ2 : isWordO (some ']') = false ∧ isWordO s[e]? = false := by
            constructor
            · decide
            · exact hword
          exact ih e (some ']') (by omega) he2 (Or.inr hγ2) (p - 16) (j - 16) hshift

theorem spansFrom_fst_ge (m : List Char → Nat → Option Nat) (s : List Char)
    (hprog : ∀ p e, m s p = some e → p < e) :
    ∀ fuel i a b, (a, b) ∈ spansFrom m s fuel i → i ≤ a := by
  intro fuel
  induction fuel with
  | zero => intro i a b hmem; simp [spansFrom] at hmem
  | succ f ih =>
    intro i a b hmem
    rcases hc : s[i]? with _ | c
    · rw [spansFrom_succ_none m s f i hc] at hmem
      simp at hmem
    · rcases hm : m s i with _ | e
      · rw [spansFrom_succ_step m s f i c hc hm] at hmem
        have := ih (i + 1) a b hmem
        omega
      · rw [spansFrom_succ_match m s f i c e hc hm] at hmem
        rcases List.mem_cons.mp hmem with heq | hmem2
        · rw [Prod.mk.injEq] at heq
          omega
        · have := ih e a b hmem2
          have := hprog i e hm
          omega

theorem renderFrom_cons (rep s : List Char) (i : Nat) (c : Char)
    (spans : List (Nat × Nat)) (hc : s[i]? = some c)
    (hfst : ∀ a b, (a, b) ∈ spans → i + 1 ≤ a) :
    renderFrom rep s i spans = c :: renderFrom rep s (i + 1) spans := by
  cases spans with
  | nil =>
    show s.drop i = c :: s.drop (i + 1)
    exact drop_cons_of_getElem s i c hc
  | cons ab rest =>
    obtain ⟨a, e⟩ := ab
    show (s.drop i).take (a - i) ++ rep ++ renderFrom rep s e rest =
      c :: ((s.drop (i + 1)).take (a - (i + 1)) ++ rep ++ renderFrom rep s e rest)
    have ha : i + 1 ≤ a := hfst a e (List.mem_cons_self _ _)
    rw [drop_cons_of_getElem s i c hc,
      show a - i = (a - (i + 1)) + 1 by omega, List.take_succ_cons]
    rfl

theorem subRender (m : List Char → Nat → Option Nat) (rep s : List Char)
    (hprog : ∀ p e, m s p = some e → p < e) :
    ∀ fuel i, s.length + 1 ≤ fuel + i →
      reSubFrom m rep s fuel i = renderFrom rep s i (spansFrom m s fuel i) := by
  intro fuel
  induction fuel with
  | zero =>
    intro i h
    show ([] : List Char) = renderFrom rep s i []
    show ([] : List Char) = s.drop i
    rw [List.drop_eq_nil_of_le (by omega)]
  | succ f ih =>
    intro i h
    rcases hc : s[i]? with _ | c
    · rw [reSubFrom_succ_none m rep s f i hc, spansFrom_succ_none m s f i hc]
      show ([] : List Char) = s.drop i
      rw [List.drop_eq_nil_of_le (List.getElem?_eq_none_iff.mp hc)]
    · rcases hm : m s i with _ | e
      · rw [reSubFrom_succ_step m rep s f i c hc hm,
          spansFrom_succ_step m s f i c hc hm,
          renderFrom_cons rep s i c _ hc
            (fun a b hmem => spansFrom_fst_ge m s hprog f (i + 1) a b hmem),
          ih (i + 1) (by omega)]
      · rw [reSubFrom_succ_match m rep s f i c e hc hm,
          spansFrom_succ_match m s f i c e hc hm]
        show rep ++ reSubFrom m rep s f e =
          (s.drop i).take (i - i) ++ rep ++ renderFrom rep s e (spansFrom m s f e)
        rw [Nat.sub_self, List.take_zero, List.nil_append,
          ih e (by have := hprog i e hm; omega)]

theorem emailProg (s : List Char) : ∀ p e, matchEmailAt s p = some e → p < e := by
  intro p e h
  have := (matchEmail_bounds s p e h).1
  omega

theorem emailSpanCover (s : List Char) :
    ∀ fuel i0, s.length + 1 ≤ fuel + i0 →
      ∀ i e, i0 ≤ i → matchEmailAt s i = some e →
        ∃ a b, (a, b) ∈ spansFrom matchEmailAt s fuel i0 ∧ a ≤ i ∧ i < b := by
  intro fuel
  induction fuel with
  | zero =>
    intro i0 h i e hi hm
    have hb := matchEmail_bounds s i e hm
    omega
  | succ f ih =>
    intro i0 h i e hi hm
    rcases hc : s[i0]? with _ | c
    · have hb := matchEmail_bounds s i e hm
      have := List.getElem?_eq_none_iff.mp hc
      omega
    · rcases hm0 : matchEmailAt s i0 with _ | e0
      · rcases Nat.eq_or_lt_of_le hi with heq | hlt
        · rw [← heq] at hm
          rw [hm0] at hm
          exact Option.noConfusion hm
        · rcases ih (i0 + 1) (by omega) i e (by omega) hm with ⟨a, b, hmem, hab⟩
          rw [spansFrom_succ_step matchEmailAt s f i0 c hc hm0]
          exact ⟨a, b, hmem, hab⟩
      · rw [spansFrom_succ_match matchEmailAt s f i0 c e0 hc hm0]
        rcases Nat.lt_or_ge i e0 with hlt | hge
        · exact ⟨i0, e0, List.mem_cons_self _ _, hi, hlt⟩
        · have he0 := (matchEmail_bounds s i0 e0 hm0).1
          rcases ih e0 (by omega) i e hge hm with ⟨a, b, hmem, hab⟩
          exact ⟨a, b, List.mem_cons_of_mem _ hmem, hab⟩

theorem emailSpans_sound (s : List Char) :
    ∀ fuel i0 a b, (a, b) ∈ spansFrom matchEmailAt s fuel i0 →
      matchEmailAt s a = some b := by
  intro fuel
  induction fuel with
  | zero => intro i0 a b hmem; simp [spansFrom] at hmem
  | succ f ih =>
    intro i0 a b hmem
    rcases hc : s[i0]? with _ | c
    · rw [spansFrom_succ_none matchEmailAt s f i0 hc] at hmem
      simp at hmem
    · rcases hm : matchEmailAt s i0 with _ | e
      · rw [spansFrom_succ_step matchEmailAt s f i0 c hc hm] at hmem
        exact ih (i0 + 1) a b hmem
      · rw [spansFrom_succ_match matchEmailAt s f i0 c e hc hm] at hmem
        rcases List.mem_cons.mp hmem with heq | hmem2
        · rw [Prod.mk.injEq] at heq
          rw [heq.1, heq.2]
          exact hm
        · exact ih e a b hmem2

/-- C9 (amended): for every text, `sanitize_text` yields a text in which no
substring matches the email pattern.  The email pass's replaced spans are
genuine email-pattern matches, an `[EMAIL_REDACTED]` placeholder stands
exactly in place of each of them, and every email match still present after
the SSN and credit-card redactions (which run first) overlaps such a span.
An email match destroyed by an overlapping SSN or credit-card redaction,
however, leaves no EMAIL_REDACTED placeholder. -/
theorem sanitize_email_redaction (t : List Char) :
    (∀ i j, ¬ EmailMatchW (sanitizeText t) i j) ∧
    (∀ i j, EmailMatchW (prePass t) i j →
      ∃ sp, sp ∈ reSpans matchEmailAt (prePass t) ∧ sp.1 ≤ i ∧ i < sp.2) ∧
    (∀ sp, sp ∈ reSpans matchEmailAt (prePass t) →
      EmailMatchW (prePass t) sp.1 sp.2) ∧
    sanitizeText t =
      renderFrom redEmail (prePass t) 0 (reSpans matchEmailAt (prePass t)) := by
  refine ⟨?_, ?_, ?_, ?_⟩
  · intro i j hM
    exact subNoMatch (prePass t) ((prePass t).length + 1) 0 none (by omega)
      (by omega) (Or.inl rfl) i j hM
  · intro i j hM
    rcases Option.isSome_iff_exists.mp (matchEmail_complete _ i j hM) with ⟨e, he⟩
    rcases emailSpanCover (prePass t) ((prePass t).length + 1) 0 (by omega) i e
      (by omega) he with ⟨a, b, hmem, hab1, hab2⟩
    exact ⟨(a, b), hmem, hab1, hab2⟩
  · intro sp hmem
    obtain ⟨a, b⟩ := sp
    exact matchEmail_soundness _ a b (emailSpans_sound (prePass t) _ 0 a b hmem)
  · exact subRender matchEmailAt redEmail (prePass t) (emailProg (prePass t))
      ((prePass t).length + 1) 0 (by omega)

/-- Witness for C9's amended theorem on "see a@b.cc": the match at 4 is
covered by a replaced span and the output carries the placeholder. -/
theorem sanitize_email_redaction_witness :
    (¬ EmailMatchW (sanitizeText "see a@b.cc".toList) 0 6) ∧
    (∃ sp, sp ∈ reSpans matchEmailAt (prePass "see a@b.cc".toList) ∧
      sp.1 ≤ 4 ∧ 4 < sp.2) ∧
    sanitizeText "see a@b.cc".toList = "see [EMAIL_REDACTED]".toList := by
  have h := sanitize_email_redaction "see a@b.cc".toList
  refine ⟨h.1 0 6, ?_, ?_⟩
  · exact h.2.1 4 10 (matchEmail_soundness _ 4 10 (by decide))
  · rw [h.2.2.2]
    decide

/-- C9 counterexample: "a@123-45-6789.cc" matches the email pattern, but the
SSN pass (which runs first) redacts the SSN inside the domain, destroying the
email match: the sanitized output is "a@[SSN_REDACTED].cc", which contains no
EMAIL_REDACTED placeholder — so a placeholder does **not** stand in place of
every original email match. -/
theorem sanitize_ssn_overlap_no_email_placeholder :
    (∃ i j, EmailMatchW "a@123-45-6789.cc".toList i j) ∧
    sanitizeText "a@123-45-6789.cc".toList = "a@[SSN_REDACTED].cc".toList ∧
    seqContains "EMAIL_REDACTED".toList
      (sanitizeText "a@123-45-6789.cc".toList) = false := by
  refine ⟨⟨0, 16, matchEmail_soundness _ 0 16 (by decide)⟩, by decide, by decide⟩

end AIBerry
